import Mathlib

/-!
Verification of the word-timing alignment and segment-planning pipeline of
the Quran video composer.

Part 1 embeds `get_words_with_timestamps` from `src/utils.py` (the Source
Loader / Timeline Builder): the three data stores, Python `str.split()`,
Python list indexing (including negative indices), and the per-verse loop
with its running offset, truncation guard and skip-on-missing policy.
File I/O and audio downloading/concatenation are outside the embedding; the
three JSON files become an abstract `Stores` record, and an uncaught Python
exception becomes `none`.

Part 2 embeds `parse_video_suggestions` from `src/LLM_utils.py` together
with the fragment of `xml.etree.ElementTree` it exercises (tags without
attributes, text content, `find`, `findall(".//tag")`), and a model of
Python `float()` on plain decimal literals.

Part 3 models the Coverage Reconciler, which has no implementation under
`src/`; it is written from the specification's §4.4 algorithm.
-/

/-- One timestamp segment of a verse: the tuple `(word_position, start, end)`
from the timestamp store (`segment[0]`, `segment[1]`, `segment[2]` in
`utils.py`). Times are modelled as rationals. -/
structure TsSegment where
  pos : Int
  start : ℚ
  «end» : ℚ
deriving DecidableEq, Repr

/-- The value of the timestamp store at one `"surah:aya"` key: its
`"segments"` list and its `"duration"` field, which may be JSON `null`
(`None`). The `"audio_url"` field only feeds the audio download and is not
modelled. -/
structure TimestampEntry where
  segments : List TsSegment
  duration : Option ℚ
deriving DecidableEq, Repr

/-- The three data sources read by `get_words_with_timestamps`:
`quran_data[str(surah)][str(aya)]["displayText"]`, the timestamp store at
`f"{surah}:{aya}"`, and the per-word translation store at
`f"{surah}:{aya}:{position}"`. A missing key is `none` (Python `KeyError`). -/
structure Stores where
  quran : Nat → Nat → Option String
  timestamps : Nat → Nat → Option TimestampEntry
  translation : Nat → Nat → Int → Option String

/-- One emitted word record (the `word_info` dict in `utils.py`); the
`translation` field holds the `"en"` entry. -/
structure WordInfo where
  word : String
  surah : Nat
  aya : Nat
  word_position : Int
  start : ℚ
  «end» : ℚ
  translation : String
deriving DecidableEq, Repr

/-- Helper for `pySplit`: walk the characters, accumulating the current
word in reverse; a whitespace character ends the current word (if any),
and no empty words are produced. -/
def pySplitAux : List Char → List Char → List String
  | [], acc => if acc.isEmpty then [] else [⟨acc.reverse⟩]
  | c :: cs, acc =>
    if c.isWhitespace then
      if acc.isEmpty then pySplitAux cs [] else ⟨acc.reverse⟩ :: pySplitAux cs []
    else pySplitAux cs (c :: acc)

/-- Python `str.split()` with no argument: split on whitespace runs,
discarding empty pieces. -/
def pySplit (s : String) : List String :=
  pySplitAux s.toList []

/-- Python list indexing `l[i]`: a negative index counts from the end
(`l[i]` is `l[len l + i]` for `i < 0`); an index outside `[-len l, len l)`
raises `IndexError`, modelled as `none`. -/
def pyGet {α : Type} (l : List α) (i : Int) : Option α :=
  let j : Int := if i < 0 then (l.length : Int) + i else i
  if h : 0 ≤ j ∧ j < l.length then l.get ⟨j.toNat, by
    rcases h with ⟨h0, hlt⟩
    omega⟩
  else none

/-- The inner loop of `get_words_with_timestamps`
(`for i, segment in enumerate(segments)`): stop as soon as the running
index `i` reaches `len(words)`; otherwise look the word up at Python index
`segment[0] - 1`, look the translation up at key
`f"{surah}:{aya}:{segment[0]}"`, and emit the record with the verse offset
added to both local times. A failed lookup is an uncaught exception
(`IndexError` / `KeyError`), modelled as `none`. -/
def processSegs (st : Stores) (surah aya : Nat) (words : List String)
    (offset : ℚ) : List TsSegment → Nat → Option (List WordInfo)
  | [], _ => some []
  | seg :: rest, i =>
    if i ≥ words.length then some []
    else
      match pyGet words (seg.pos - 1), st.translation surah aya seg.pos with
      | some w, some tr =>
        match processSegs st surah aya words offset rest (i + 1) with
        | some out =>
          some ({ word := w, surah := surah, aya := aya,
                  word_position := seg.pos,
                  start := seg.start + offset, «end» := seg.«end» + offset,
                  translation := tr } :: out)
        | none => none
      | _, _ => none

/-- One iteration of the outer `for aya_number in range(...)` loop of
`get_words_with_timestamps`, acting on the accumulated `result` list and
the running `offset`.  A `KeyError` on the verse-text store or the
timestamp store is caught (`continue`): the verse is skipped and the state
is returned unchanged.  Otherwise the segments are processed, and the
offset advances by the declared `duration` when it is not `None`, else by
`result[-1]["end"]` — the end time of the last record of the *global*
result list, which raises `IndexError` (modelled `none`) when that list is
empty. -/
def processAya (st : Stores) (surah aya : Nat) (acc : List WordInfo)
    (offset : ℚ) : Option (List WordInfo × ℚ) :=
  match st.quran surah aya with
  | none => some (acc, offset)
  | some text =>
    match st.timestamps surah aya with
    | none => some (acc, offset)
    | some e =>
      let words := pySplit text
      match processSegs st surah aya words offset e.segments 0 with
      | none => none
      | some ws =>
        let acc' := acc ++ ws
        match e.duration with
        | some d => some (acc', offset + d)
        | none =>
          match acc'.getLast? with
          | some w => some (acc', offset + w.«end»)
          | none => none

/-- The outer loop of `get_words_with_timestamps` over the list of verse
numbers, threading the accumulated result and the offset. -/
def processRange (st : Stores) (surah : Nat) : List Nat → List WordInfo → ℚ →
    Option (List WordInfo)
  | [], acc, _ => some acc
  | aya :: rest, acc, offset =>
    match processAya st surah aya acc offset with
    | none => none
    | some (acc', offset') => processRange st surah rest acc' offset'

/-- `get_words_with_timestamps(surah_number, aya_start, aya_end)` from
`src/utils.py`, restricted to its data transformation: iterate over
`range(aya_start, aya_end + 1)` with `offset = 0` and an empty result list.
`none` models an uncaught exception escaping the function. -/
def get_words_with_timestamps (st : Stores) (surah aya_start aya_end : Nat) :
    Option (List WordInfo) :=
  processRange st surah (List.range' aya_start (aya_end + 1 - aya_start)) [] 0

/-!
Part 2: `parse_video_suggestions` of `src/LLM_utils.py` and the fragment of
`xml.etree.ElementTree` it exercises.  The model covers tags without
attributes or entities (the shape the suggestion prompt fixes); `none`
models a raised `xml.etree.ElementTree.ParseError`.
-/

/-- A token of the XML fragment language: a start tag, an end tag, or a
maximal run of character data. A self-closing tag produces a start token
immediately followed by an end token. -/
inductive Tok where
  | openTag (name : String)
  | closeTag (name : String)
  | textTok (s : String)
deriving DecidableEq, Repr

/-- Tokenizer state: between tokens, just after a `<`, inside a tag name
(open or close), just after the `/` of a self-closing tag, or inside
character data. -/
inductive TokState where
  | outside
  | sawLT
  | inName (isClose : Bool) (acc : List Char)
  | selfClose (acc : List Char)
  | inText (acc : List Char)
deriving DecidableEq, Repr

/-- One character step of the tokenizer: the tokens it completes and the
next state, or `none` on malformed markup (a `<` inside a tag, an empty
tag name, anything but `>` after a self-closing `/`). -/
def tokStep : TokState → Char → Option (List Tok × TokState)
  | .outside, c =>
    if c = '<' then some ([], .sawLT) else some ([], .inText [c])
  | .sawLT, c =>
    if c = '/' then some ([], .inName true [])
    else if c = '<' ∨ c = '>' then none
    else some ([], .inName false [c])
  | .inName isClose acc, c =>
    if c = '>' then
      if acc.isEmpty then none
      else some ([if isClose then .closeTag ⟨acc⟩ else .openTag ⟨acc⟩], .outside)
    else if c = '<' then none
    else if c = '/' then
      if isClose then none else some ([], .selfClose acc)
    else some ([], .inName isClose (acc ++ [c]))
  | .selfClose acc, c =>
    if c = '>' then some ([.openTag ⟨acc⟩, .closeTag ⟨acc⟩], .outside)
    else none
  | .inText acc, c =>
    if c = '<' then some ([.textTok ⟨acc⟩], .sawLT)
    else some ([], .inText (acc ++ [c]))

/-- Run the tokenizer over a character list, returning the tokens emitted
and the final state. -/
def tokSteps : TokState → List Char → Option (List Tok × TokState)
  | st, [] => some ([], st)
  | st, c :: cs =>
    match tokStep st c with
    | none => none
    | some (ts, st') =>
      match tokSteps st' cs with
      | some (rest, stF) => some (ts ++ rest, stF)
      | none => none

/-- Flush the tokenizer at end of input: pending character data becomes a
final text token; an unterminated tag is malformed. -/
def tokFinish : TokState → Option (List Tok)
  | .outside => some []
  | .inText acc => some [.textTok ⟨acc⟩]
  | _ => none

/-- Tokenize a whole string. -/
def tokenize (s : String) : Option (List Tok) :=
  match tokSteps .outside s.toList with
  | none => none
  | some (ts, stF) =>
    match tokFinish stF with
    | none => none
    | some fin => some (ts ++ fin)

/-- An `ElementTree` node: an element with a tag and an ordered list of
child nodes (character data appears as `text` children), or a run of
character data. -/
inductive XNode where
  | elem (tag : String) (children : List XNode)
  | text (s : String)
deriving Repr

/-- Build the document tree from the token stream with a stack of open
elements (children accumulated in reverse).  The whole stream must be a
single root element with nothing after its end tag; mismatched or missing
tags and character data outside the root are malformed. -/
def build : List Tok → List (String × List XNode) → Option XNode
  | [], _ => none
  | .openTag n :: rest, stack => build rest ((n, []) :: stack)
  | .textTok s :: rest, stack =>
    match stack with
    | [] => none
    | (n, cs) :: stk => build rest ((n, .text s :: cs) :: stk)
  | .closeTag m :: rest, stack =>
    match stack with
    | [] => none
    | (n, cs) :: stk =>
      if m = n then
        match stk with
        | [] => if rest.isEmpty then some (XNode.elem n cs.reverse) else none
        | (p, ps) :: stk' => build rest ((p, XNode.elem n cs.reverse :: ps) :: stk')
      else none

/-- `xml.etree.ElementTree.fromstring` on the modelled fragment language:
`none` is a raised `ParseError`. -/
def ET_fromstring (s : String) : Option XNode :=
  match tokenize s with
  | none => none
  | some ts => build ts []

mutual

/-- `element.findall(".//" + tag)`: all proper descendants with the given
tag, in document order. -/
def findall (n : XNode) (tag : String) : List XNode :=
  match n with
  | .text _ => []
  | .elem _ cs => findallList cs tag

/-- `findall` over a list of sibling nodes. -/
def findallList : List XNode → String → List XNode
  | [], _ => []
  | c :: cs, tag =>
    (match c with
     | .elem t _ => if t = tag then [c] else []
     | .text _ => []) ++ findall c tag ++ findallList cs tag

end

/-- `element.find(tag)`: the first direct child element with the given
tag, or `None`. -/
def childTag : List XNode → String → Option XNode
  | [], _ => none
  | c :: cs, tag =>
    match c with
    | .elem t _ => if t = tag then some c else childTag cs tag
    | .text _ => childTag cs tag

/-- `element.find(tag)` on a node. -/
def findChild (n : XNode) (tag : String) : Option XNode :=
  match n with
  | .text _ => none
  | .elem _ cs => childTag cs tag

/-- `element.text`: the character data between the start tag and the first
child element, `None` when there is none. -/
def XNode.textOf : XNode → Option String
  | .text _ => none
  | .elem _ cs =>
    match cs with
    | .text s :: _ => some s
    | _ => none

/-- Numeric value of a digit run. -/
def digitsVal (cs : List Char) : Nat :=
  cs.foldl (fun n c => n * 10 + (c.toNat - '0'.toNat)) 0

/-- Python `float()` on plain decimal literals: optional surrounding
whitespace, optional sign, digits with at most one decimal point and at
least one digit.  Exotic accepted forms (`inf`, `nan`, exponents,
underscores) are outside the modelled fragment; `none` is a raised
`ValueError`. -/
def pyFloat (s : String) : Option ℚ :=
  let cs := s.toList.dropWhile (fun c => c.isWhitespace)
  let cs := (cs.reverse.dropWhile (fun c => c.isWhitespace)).reverse
  let sgncs : ℚ × List Char :=
    match cs with
    | '-' :: r => (-1, r)
    | '+' :: r => (1, r)
    | _ => (1, cs)
  let intPart := sgncs.2.takeWhile (fun c => c.isDigit)
  let rest := sgncs.2.dropWhile (fun c => c.isDigit)
  match rest with
  | [] => if intPart.isEmpty then none else some (sgncs.1 * (digitsVal intPart : ℚ))
  | '.' :: frac =>
    if frac.all (fun c => c.isDigit) ∧ (intPart ≠ [] ∨ frac ≠ []) then
      some (sgncs.1 * ((digitsVal intPart : ℚ) + (digitsVal frac : ℚ) / (10 : ℚ) ^ frac.length))
    else none
  | _ => none

/-- Python `float(x)` where `x` is `element.text`: `float(None)` raises
`TypeError`, modelled as `none`. -/
def pyFloatOfText : Option String → Option ℚ
  | none => none
  | some s => pyFloat s

/-- The `VideoSuggestion` dataclass of `src/LLM_utils.py`.  `keywords` is
`element.find("query").text`, which is `None` at runtime when the query
element is empty, hence `Option String`. -/
structure VideoSuggestion where
  keywords : Option String
  start_time : ℚ
  end_time : ℚ
deriving DecidableEq, Repr

/-- The error `parse_video_suggestions` surfaces to its caller (the spec's
`SuggestionFormatError`; in the code, the generic exception re-raised by
the `except` clause). -/
inductive SuggestionFormatError where
  | mk
deriving DecidableEq, Repr

/-- The loop body of `parse_video_suggestions` for one `<video>` element:
`find("query").text`, `float(find("start").text)`,
`float(find("end").text)`.  A missing child (`None.text` →
`AttributeError`) or a failing conversion (`ValueError` / `TypeError`) is
an exception, modelled as `none`. -/
def extractOne (v : XNode) : Option VideoSuggestion :=
  match findChild v "query" with
  | none => none
  | some q =>
    match findChild v "start" with
    | none => none
    | some s =>
      match findChild v "end" with
      | none => none
      | some e =>
        match pyFloatOfText (XNode.textOf s), pyFloatOfText (XNode.textOf e) with
        | some sv, some ev => some ⟨XNode.textOf q, sv, ev⟩
        | _, _ => none

/-- The `for video_elem in root.findall(".//video")` loop: build the
suggestion list, propagating any exception. -/
def extractAll : List XNode → Option (List VideoSuggestion)
  | [] => some []
  | v :: vs =>
    match extractOne v with
    | none => none
    | some s =>
      match extractAll vs with
      | none => none
      | some rest => some (s :: rest)

/-- `parse_video_suggestions(llm_output)` from `src/LLM_utils.py`: wrap the
output in a synthetic `<root>` element, parse it, collect every descendant
`<video>` element, and extract a suggestion from each; any exception in the
`try` block is surfaced as the format error. -/
def parse_video_suggestions (llm_output : String) :
    Except SuggestionFormatError (List VideoSuggestion) :=
  match ET_fromstring ("<root>" ++ llm_output ++ "</root>") with
  | none => .error .mk
  | some root =>
    match extractAll (findall root "video") with
    | none => .error .mk
    | some l => .ok l

/-!
Part 3: the Coverage Reconciler.  No implementation exists under `src/`;
the definitions below are modelled from the specification's §4.4 contract.
-/

/-- Modelled from the spec: the `VideoSegment` / `SegmentSuggestion` record
of §3 (`{query, start_time, end_time}`); the Reconciler itself has no
implementation under `src/`. -/
structure VideoSegment where
  query : String
  start_time : ℚ
  end_time : ℚ
deriving DecidableEq, Repr

/-- Modelled from the spec: the Reconciler's fatal error
`InvalidSegmentOrderError` (§4.4, §7). -/
inductive InvalidSegmentOrderError where
  | mk
deriving DecidableEq, Repr

/-- Insert a segment into a list sorted by `start_time`, before any
segment with an equal start (so the overall sort is stable). -/
def insertSeg (s : VideoSegment) : List VideoSegment → List VideoSegment
  | [] => [s]
  | t :: ts =>
    if s.start_time ≤ t.start_time then s :: t :: ts else t :: insertSeg s ts

/-- Modelled from the spec: "Sort suggestions by `start_time`" (§4.4),
as a stable insertion sort. -/
def sortByStart : List VideoSegment → List VideoSegment
  | [] => []
  | s :: ss => insertSeg s (sortByStart ss)

/-- Modelled from the spec: "Clamp the first suggestion's `start_time` to
`T_start`" (§4.4). -/
def setFirstStart (v : ℚ) : List VideoSegment → List VideoSegment
  | [] => []
  | s :: ss => { s with start_time := v } :: ss

/-- Modelled from the spec: "clamp ... the last suggestion's `end_time` to
`T_end`" (§4.4). -/
def setLastEnd (v : ℚ) : List VideoSegment → List VideoSegment
  | [] => []
  | [s] => [{ s with end_time := v }]
  | s :: t :: ts => s :: setLastEnd v (t :: ts)

/-- Modelled from the spec: the adjacent-pair resolution pass of §4.4 with
`s` the current earlier segment — when `s.end_time < t.start_time`, close
the gap by extending the earlier segment's end to the later segment's
start; when they overlap, push the later segment's start forward to the
earlier segment's end (earlier wins); on a tie leave both unchanged. -/
def resolveAux (s : VideoSegment) : List VideoSegment → List VideoSegment
  | [] => [s]
  | t :: rest =>
    if s.end_time < t.start_time then
      { s with end_time := t.start_time } :: resolveAux t rest
    else if t.start_time < s.end_time then
      s :: resolveAux { t with start_time := s.end_time } rest
    else
      s :: resolveAux t rest

/-- Modelled from the spec: "For each adjacent pair, if
`suggestion[i].end_time != suggestion[i+1].start_time`, resolve the
discontinuity" (§4.4), processed left to right. -/
def resolvePass : List VideoSegment → List VideoSegment
  | [] => []
  | s :: rest => resolveAux s rest

/-- Modelled from the spec: the sorted suggestion list after both clamps
of §4.4 (first start to `T_start`, last end to `T_end`). -/
def reconClamped (sugs : List VideoSegment) (tStart tEnd : ℚ) :
    List VideoSegment :=
  setFirstStart tStart (setLastEnd tEnd (sortByStart sugs))

/-- Modelled from the spec: the segment list after the adjacent-pair
resolution pass of §4.4, before the final drop. -/
def reconResolved (sugs : List VideoSegment) (tStart tEnd : ℚ) :
    List VideoSegment :=
  resolvePass (reconClamped sugs tStart tEnd)

/-- Modelled from the spec: the Coverage Reconciler of §4.4.  Sort by
`start_time`; reject with `InvalidSegmentOrderError` when any suggestion
has `end_time <= start_time`; clamp the first start to `T_start` and the
last end to `T_end`; resolve every adjacent discontinuity; finally drop any
segment whose `start_time >= end_time`. -/
def reconcile (sugs : List VideoSegment) (tStart tEnd : ℚ) :
    Except InvalidSegmentOrderError (List VideoSegment) :=
  if (sortByStart sugs).any (fun s => s.end_time ≤ s.start_time) then
    .error .mk
  else
    .ok ((reconResolved sugs tStart tEnd).filter
          (fun s => s.start_time < s.end_time))

/-!
Predicates, reference models and concrete inputs used by the theorems.
-/

deriving instance DecidableEq for Except

/-- The segments of `l` are pairwise non-overlapping as `[start, end)`
intervals. -/
def SegsDisjoint (l : List VideoSegment) : Prop :=
  l.Pairwise (fun s t => s.end_time ≤ t.start_time ∨ t.end_time ≤ s.start_time)

/-- The segments of `l` are sorted by `start_time`. -/
def SegsSorted (l : List VideoSegment) : Prop :=
  l.Pairwise (fun s t => s.start_time ≤ t.start_time)

/-- The union of the `[start_time, end_time)` intervals of `l` is exactly
`[a, b)`. -/
def SegsCover (l : List VideoSegment) (a b : ℚ) : Prop :=
  ∀ x : ℚ, (∃ s ∈ l, s.start_time ≤ x ∧ x < s.end_time) ↔ (a ≤ x ∧ x < b)

/-- Every segment of `l` is a proper interval (`start_time < end_time`). -/
def allProper (l : List VideoSegment) : Bool :=
  l.all (fun s => decide (s.start_time < s.end_time))

/-- The resolution pass leaves every segment proper, so the final drop of
§4.4 removes nothing. -/
def noDropB (sugs : List VideoSegment) (tStart tEnd : ℚ) : Bool :=
  allProper (reconResolved sugs tStart tEnd)

/-- The record `get_words_with_timestamps` emits for one segment of a verse
whose split words are `words`, at a given running offset; the `getD`
defaults stand for lookups that the theorems' hypotheses force to succeed. -/
def mkRecD (st : Stores) (surah aya : Nat) (words : List String) (offset : ℚ)
    (sg : TsSegment) : WordInfo :=
  { word := (pyGet words (sg.pos - 1)).getD ""
    surah := surah
    aya := aya
    word_position := sg.pos
    start := sg.start + offset
    «end» := sg.«end» + offset
    translation := (st.translation surah aya sg.pos).getD "" }

/-- Reference model following the claim's words: one verse's records — each
segment's 1-based `word_position` selects the split word at index
`position - 1`, and the emitted record adds the running offset to the
segment's local start and end. -/
def specVerseWords (st : Stores) (surah aya : Nat) (words : List String)
    (segs : List TsSegment) (offset : ℚ) : List WordInfo :=
  segs.map (mkRecD st surah aya words offset)

/-- Reference model following the claim's words: the running offset starts
at zero (at the call site) and, after each verse, advances by the verse's
declared audio duration when it is not null, and otherwise by the end time
of that verse's last emitted word record.  A verse absent from the
verse-text or timestamp store contributes nothing. -/
def specTimeline (st : Stores) (surah : Nat) : List Nat → ℚ → List WordInfo
  | [], _ => []
  | aya :: rest, offset =>
    match st.quran surah aya, st.timestamps surah aya with
    | some text, some e =>
      let ws := specVerseWords st surah aya (pySplit text) e.segments offset
      let offset' :=
        match e.duration with
        | some d => offset + d
        | none =>
          match ws.getLast? with
          | some w => offset + w.«end»
          | none => offset
      ws ++ specTimeline st surah rest offset'
    | _, _ => specTimeline st surah rest offset

/-- Validity of the segments a verse's processing actually touches: every
`word_position` is between 1 and the split word count, and its translation
is present. -/
def verseSegsOk (st : Stores) (surah aya : Nat) (words : List String)
    (segs : List TsSegment) : Bool :=
  segs.all (fun sg =>
    decide (1 ≤ sg.pos) && decide (sg.pos ≤ (words.length : Int)) &&
    (st.translation surah aya sg.pos).isSome)

/-- Full validity of one verse for the offset-algorithm theorem: when both
the verse text and the timestamps are present, the segment count does not
exceed the word count, every segment is in bounds with its translation
present, and a null duration only occurs with at least one segment. -/
def verseOk (st : Stores) (surah aya : Nat) : Bool :=
  match st.quran surah aya, st.timestamps surah aya with
  | some text, some e =>
    decide (e.segments.length ≤ (pySplit text).length) &&
    verseSegsOk st surah aya (pySplit text) e.segments &&
    (e.duration.isSome || !e.segments.isEmpty)
  | _, _ => true

/-- One timestamp segment is a proper nonnegative interval. -/
def segProper (s : TsSegment) : Bool :=
  decide (0 ≤ s.start) && decide (s.start ≤ s.«end»)

/-- Adjacent timestamp segments are in increasing, non-overlapping time
order. -/
def adjOk : List TsSegment → Bool
  | [] => true
  | [_] => true
  | s :: t :: rest => decide (s.«end» ≤ t.start) && adjOk (t :: rest)

/-- Timing validity of one timestamp-store entry: segments are proper and
in increasing, non-overlapping order, and a declared duration is
nonnegative and at least the last segment's local end time. -/
def entryOk (e : TimestampEntry) : Bool :=
  e.segments.all segProper && adjOk e.segments &&
  (match e.duration with
   | some d =>
     decide (0 ≤ d) &&
     (match e.segments.getLast? with
      | some s => decide (s.«end» ≤ d)
      | none => true)
   | none => true)

/-- Timing validity of every timestamp-store entry over a verse list. -/
def storeOk (st : Stores) (surah : Nat) (ayas : List Nat) : Bool :=
  ayas.all (fun a =>
    match st.timestamps surah a with
    | some e => entryOk e
    | none => true)

/-- C6's error conditions for one `<video>` element: a required field
(`query`, `start`, or `end`) is missing, or a `start`/`end` field's text
does not convert to a number. -/
def badVideoElem (v : XNode) : Prop :=
  findChild v "query" = none ∨ findChild v "start" = none ∨
  findChild v "end" = none ∨
  (∃ s, findChild v "start" = some s ∧ pyFloatOfText (XNode.textOf s) = none) ∨
  (∃ e, findChild v "end" = some e ∧ pyFloatOfText (XNode.textOf e) = none)

/-- The wrapped agent output parses but contains no `<video>` element. -/
def noVideoElems (s : String) : Bool :=
  match ET_fromstring ("<root>" ++ s ++ "</root>") with
  | some root => (findall root "video").isEmpty
  | none => false

/-- Concrete two-verse store: verse 1 has two words and a declared
duration, verse 2 has one word and a null duration. -/
def stW : Stores where
  quran := fun s a =>
    if s = 1 ∧ a = 1 then some "alpha beta"
    else if s = 1 ∧ a = 2 then some "gamma" else none
  timestamps := fun s a =>
    if s = 1 ∧ a = 1 then some ⟨[⟨1, 0, 1⟩, ⟨2, 1, 2⟩], some 3⟩
    else if s = 1 ∧ a = 2 then some ⟨[⟨1, 0, 2⟩], none⟩ else none
  translation := fun s a p =>
    if s = 1 ∧ a = 1 ∧ p = 1 then some "first"
    else if s = 1 ∧ a = 1 ∧ p = 2 then some "second"
    else if s = 1 ∧ a = 2 ∧ p = 1 then some "third" else none

/-- Concrete store where verse 2 is present in the verse-text store but has
no translation for its only word: verse 1 is fully present, verse 2 has
text and timestamps but the translation store lacks key `1:2:1`. -/
def stNoTr : Stores where
  quran := fun s a =>
    if s = 1 ∧ a = 1 then some "alpha"
    else if s = 1 ∧ a = 2 then some "gamma" else none
  timestamps := fun s a =>
    if s = 1 ∧ a = 1 then some ⟨[⟨1, 0, 1⟩], some 2⟩
    else if s = 1 ∧ a = 2 then some ⟨[⟨1, 0, 1⟩], some 1⟩ else none
  translation := fun s a p =>
    if s = 1 ∧ a = 1 ∧ p = 1 then some "first" else none

/-- Concrete store where verse 2 is present in the verse-text store but
absent from the timestamp store. -/
def stMiss : Stores where
  quran := fun s a =>
    if s = 1 ∧ a = 1 then some "alpha"
    else if s = 1 ∧ a = 2 then some "gamma"
    else if s = 1 ∧ a = 3 then some "delta" else none
  timestamps := fun s a =>
    if s = 1 ∧ a = 1 then some ⟨[⟨1, 0, 1⟩], some 2⟩
    else if s = 1 ∧ a = 3 then some ⟨[⟨1, 0, 1⟩], some 1⟩ else none
  translation := fun s a p =>
    if s = 1 ∧ a = 1 ∧ p = 1 then some "first"
    else if s = 1 ∧ a = 3 ∧ p = 1 then some "fourth" else none

/-- Concrete store whose single verse has three timestamp segments but only
two split words; the third segment's translation is deliberately absent —
the truncation must never touch it. -/
def stTrunc : Stores where
  quran := fun s a => if s = 1 ∧ a = 1 then some "alpha beta" else none
  timestamps := fun s a =>
    if s = 1 ∧ a = 1 then some ⟨[⟨1, 0, 1⟩, ⟨2, 1, 2⟩, ⟨3, 2, 3⟩], some 4⟩
    else none
  translation := fun s a p =>
    if s = 1 ∧ a = 1 ∧ p = 1 then some "first"
    else if s = 1 ∧ a = 1 ∧ p = 2 then some "second" else none

/-- Concrete store whose single verse has one split word and one timestamp
segment carrying `word_position = 0`, with a translation present at key
`1:1:0`. -/
def stNeg : Stores where
  quran := fun s a => if s = 1 ∧ a = 1 then some "alpha" else none
  timestamps := fun s a =>
    if s = 1 ∧ a = 1 then some ⟨[⟨0, 0, 1⟩], some 2⟩ else none
  translation := fun s a p =>
    if s = 1 ∧ a = 1 ∧ p = 0 then some "zeroth" else none

/-!
Theorems.
-/

theorem extractOne_eq_none_iff (v : XNode) :
    extractOne v = none ↔ badVideoElem v := by
  unfold extractOne badVideoElem
  cases hq : findChild v "query" with
  | none => simp
  | some q =>
    cases hs : findChild v "start" with
    | none => simp
    | some s =>
      cases he : findChild v "end" with
      | none => simp
      | some e =>
        cases hps : pyFloatOfText (XNode.textOf s) with
        | none => simp [hps]
        | some sv =>
          cases hpe : pyFloatOfText (XNode.textOf e) with
          | none => simp [hps, hpe]
          | some ev => simp [hps, hpe]

theorem extractAll_eq_none_iff (vs : List XNode) :
    extractAll vs = none ↔ ∃ v ∈ vs, extractOne v = none := by
  induction vs with
  | nil => simp [extractAll]
  | cons v vs ih =>
    unfold extractAll
    cases hv : extractOne v with
    | none => simp [hv]
    | some s =>
      cases ha : extractAll vs with
      | none =>
        simp only [true_iff]
        obtain ⟨w, hw, hwn⟩ := ih.mp ha
        exact ⟨w, List.mem_cons_of_mem _ hw, hwn⟩
      | some l =>
        simp only [reduceCtorEq, false_iff, not_exists]
        intro w hw
        rcases hw with ⟨hmem, hwn⟩
        rcases List.mem_cons.mp hmem with h | h
        · subst h; simp [hv] at hwn
        · exact absurd (ih.mpr ⟨w, h, hwn⟩) (by simp [ha])

theorem parse_of_parse_fail (s : String)
    (h : ET_fromstring ("<root>" ++ s ++ "</root>") = none) :
    parse_video_suggestions s = .error .mk := by
  unfold parse_video_suggestions
  rw [h]

theorem parse_of_root (s : String) (root : XNode)
    (h : ET_fromstring ("<root>" ++ s ++ "</root>") = some root) :
    parse_video_suggestions s =
      (match extractAll (findall root "video") with
       | none => .error .mk
       | some l => .ok l) := by
  unfold parse_video_suggestions
  rw [h]

/-- C6: `parse_video_suggestions` raises the format error exactly when the
wrapped agent output cannot be parsed, or some video element lacks a
required field (`query`, `start`, `end`) or has a `start`/`end` whose text
is not numeric; in particular an input whose video element lacks an `end`
tag raises it. -/
theorem parse_error_characterization :
    (∀ s : String,
      parse_video_suggestions s = .error .mk ↔
        (ET_fromstring ("<root>" ++ s ++ "</root>") = none ∨
         ∃ root, ET_fromstring ("<root>" ++ s ++ "</root>") = some root ∧
           ∃ v ∈ findall root "video", badVideoElem v)) ∧
    parse_video_suggestions "<video><query>desert</query><start>0</start></video>" =
      .error .mk := by
  constructor
  · intro s
    cases hp : ET_fromstring ("<root>" ++ s ++ "</root>") with
    | none => simp [parse_of_parse_fail s hp]
    | some root =>
      rw [parse_of_root s root hp]
      cases ha : extractAll (findall root "video") with
      | none =>
        simp only [true_iff]
        refine Or.inr ⟨root, rfl, ?_⟩
        obtain ⟨v, hv, hvn⟩ := (extractAll_eq_none_iff _).mp ha
        exact ⟨v, hv, (extractOne_eq_none_iff v).mp hvn⟩
      | some l =>
        simp only [reduceCtorEq, false_iff]
        rintro (h | ⟨root', hroot, v, hv, hbad⟩)
        · exact absurd h (by simp [hp])
        · obtain rfl : root = root' := by injection hroot
          have : extractAll (findall root "video") = none :=
            (extractAll_eq_none_iff _).mpr
              ⟨v, hv, (extractOne_eq_none_iff v).mpr hbad⟩
          simp [this] at ha
  · rfl

/-- C9: for every input string that becomes well-formed XML when wrapped in
the synthetic root element but contains zero video elements,
`parse_video_suggestions` returns the empty list and raises no error. -/
theorem parse_no_videos (s : String) (h : noVideoElems s = true) :
    parse_video_suggestions s = .ok [] := by
  unfold noVideoElems at h
  cases hp : ET_fromstring ("<root>" ++ s ++ "</root>") with
  | none => rw [hp] at h; exact absurd h (by simp)
  | some root =>
    rw [hp] at h
    rw [parse_of_root s root hp, List.isEmpty_iff.mp h]
    rfl

theorem parse_no_videos_witness :
    noVideoElems "I could not find suitable clips for this recitation." = true ∧
    parse_video_suggestions "I could not find suitable clips for this recitation." =
      .ok [] :=
  ⟨by decide, parse_no_videos _ (by decide)⟩

/-- C1 counterexample: the suggestion list `[a(0,10), b(2,3), c(3,10)]`,
whose every element has `end_time > start_time`, reconciles over `[0, 10)`
to `[a(0,10), c(3,10)]`, which is not pairwise non-overlapping. -/
theorem reconciler_totality_cex :
    allProper [⟨"a", 0, 10⟩, ⟨"b", 2, 3⟩, ⟨"c", 3, 10⟩] = true ∧
    reconcile [⟨"a", 0, 10⟩, ⟨"b", 2, 3⟩, ⟨"c", 3, 10⟩] 0 10 =
      .ok [⟨"a", 0, 10⟩, ⟨"c", 3, 10⟩] ∧
    ¬ SegsDisjoint [⟨"a", 0, 10⟩, ⟨"c", 3, 10⟩] := by
  refine ⟨by decide, by decide, ?_⟩
  unfold SegsDisjoint
  decide

/-- C8 counterexample: the Reconciler succeeds on
`[a(0,10), b(2,3), c(3,10)]` over `[0, 10)`, but re-running it on its own
output does not return that output unchanged. -/
theorem reconciler_idempotent_cex :
    reconcile [⟨"a", 0, 10⟩, ⟨"b", 2, 3⟩, ⟨"c", 3, 10⟩] 0 10 =
      .ok [⟨"a", 0, 10⟩, ⟨"c", 3, 10⟩] ∧
    reconcile [⟨"a", 0, 10⟩, ⟨"c", 3, 10⟩] 0 10 ≠
      .ok [⟨"a", 0, 10⟩, ⟨"c", 3, 10⟩] := by
  refine ⟨by decide, by decide⟩

/-- C3 counterexample: on `stNoTr`, verse 2 is present in the verse-text
and timestamp stores but its only word's translation is absent; the
builder raises an uncaught `KeyError` (modelled `none`) instead of
skipping verse 2 and returning verse 1's records. -/
theorem loader_skip_cex :
    get_words_with_timestamps stNoTr 1 1 2 = none := by decide

/-- C10 counterexample: with one split word and a processed segment whose
`word_position` is 0 — not between 1 and the word count — the Python
lookup `words[segment[0] - 1]` is nevertheless in bounds (negative
indexing), and the builder succeeds, refuting the claimed equivalence. -/
theorem lookup_bounds_cex :
    (pyGet ["alpha"] ((0 : Int) - 1)).isSome = true ∧
    ¬ ((1 : Int) ≤ 0 ∧ (0 : Int) ≤ (([("alpha" : String)].length : Int))) ∧
    get_words_with_timestamps stNeg 1 1 1 =
      some [⟨"alpha", 1, 1, 0, 0, 1, "zeroth"⟩] := by
  refine ⟨by decide, by decide, ?_⟩
  simp [get_words_with_timestamps, List.range', processRange, processAya,
    processSegs, pySplit, pySplitAux, pyGet, stNeg]

theorem tokSteps_append (a b : List Char) (st : TokState) :
    tokSteps st (a ++ b) =
      match tokSteps st a with
      | none => none
      | some (ts, st') =>
        match tokSteps st' b with
        | none => none
        | some (rest, stF) => some (ts ++ rest, stF) := by
  induction a generalizing st with
  | nil =>
    simp only [List.nil_append, tokSteps]
    cases tokSteps st b with
    | none => rfl
    | some p => cases p; simp
  | cons c cs ih =>
    simp only [List.cons_append, tokSteps]
    cases tokStep st c with
    | none => rfl
    | some p =>
      obtain ⟨ts, st'⟩ := p
      simp only [List.append_eq]
      rw [ih st']
      cases tokSteps st' cs with
      | none => rfl
      | some q =>
        obtain ⟨ts2, st2⟩ := q
        simp only []
        cases tokSteps st2 b with
        | none => rfl
        | some r =>
          obtain ⟨ts3, st3⟩ := r
          simp [List.append_assoc]

theorem tokSteps_inText (l : List Char) (acc : List Char)
    (h : ∀ c ∈ l, c ≠ '<') :
    tokSteps (.inText acc) l = some ([], .inText (acc ++ l)) := by
  induction l generalizing acc with
  | nil => simp [tokSteps]
  | cons c cs ih =>
    have hc : c ≠ '<' := h c (List.mem_cons_self c cs)
    simp only [tokSteps, tokStep, if_neg hc]
    rw [ih (acc ++ [c]) (fun d hd => h d (List.mem_cons_of_mem _ hd))]
    simp

theorem tokSteps_close_root (acc : List Char) :
    tokSteps (.inText acc) "</root>".toList =
      some ([.textTok ⟨acc⟩, .closeTag "root"], .outside) := rfl

theorem tokSteps_prose_close (t : List Char) (hne : t ≠ [])
    (hlt : ∀ c ∈ t, c ≠ '<') :
    tokSteps .outside (t ++ "</root>".toList) =
      some ([Tok.textTok ⟨t⟩, Tok.closeTag "root"], .outside) := by
  obtain ⟨c, cs, rfl⟩ := List.exists_cons_of_ne_nil hne
  have hc : c ≠ '<' := hlt c (by simp)
  simp only [List.cons_append, tokSteps, tokStep, if_neg hc, List.append_eq]
  rw [tokSteps_append]
  rw [tokSteps_inText cs [c] (fun d hd => hlt d (by simp [hd]))]
  simp only [List.singleton_append]
  rw [tokSteps_close_root (c :: cs)]
  simp

theorem tokSteps_video_prefix (rest : List Char) :
    tokSteps .outside
      ("<root><video><query>desert</query><start>0</start><end>3.2</end></video>".toList
        ++ rest) =
      match tokSteps .outside rest with
      | none => none
      | some (ts, stF) =>
        some ([Tok.openTag "root", Tok.openTag "video", Tok.openTag "query",
               Tok.textTok "desert", Tok.closeTag "query", Tok.openTag "start",
               Tok.textTok "0", Tok.closeTag "start", Tok.openTag "end",
               Tok.textTok "3.2", Tok.closeTag "end", Tok.closeTag "video"] ++ ts,
              stF) := by
  rw [tokSteps_append]
  have h : tokSteps .outside
      "<root><video><query>desert</query><start>0</start><end>3.2</end></video>".toList =
      some ([Tok.openTag "root", Tok.openTag "video", Tok.openTag "query",
             Tok.textTok "desert", Tok.closeTag "query", Tok.openTag "start",
             Tok.textTok "0", Tok.closeTag "start", Tok.openTag "end",
             Tok.textTok "3.2", Tok.closeTag "end", Tok.closeTag "video"],
            .outside) := by decide
  rw [h]

theorem tokenize_video_prose (t : String) (hne : t.toList ≠ [])
    (hlt : ∀ c ∈ t.toList, c ≠ '<') :
    tokenize ("<root>" ++
      ("<video><query>desert</query><start>0</start><end>3.2</end></video>" ++ t) ++
      "</root>") =
      some ([Tok.openTag "root", Tok.openTag "video", Tok.openTag "query",
             Tok.textTok "desert", Tok.closeTag "query", Tok.openTag "start",
             Tok.textTok "0", Tok.closeTag "start", Tok.openTag "end",
             Tok.textTok "3.2", Tok.closeTag "end", Tok.closeTag "video",
             Tok.textTok t, Tok.closeTag "root"]) := by
  unfold tokenize
  have hsplit : ("<root>" ++
      ("<video><query>desert</query><start>0</start><end>3.2</end></video>" ++ t) ++
      "</root>").toList =
      "<root><video><query>desert</query><start>0</start><end>3.2</end></video>".toList
        ++ (t.toList ++ "</root>".toList) := by
    show ("<root>".toList ++
        ("<video><query>desert</query><start>0</start><end>3.2</end></video>".toList
          ++ t.toList)) ++ "</root>".toList = _
    simp only [List.append_assoc, List.cons_append, List.nil_append]
    rfl
  rw [hsplit, tokSteps_video_prefix, tokSteps_prose_close t.toList hne hlt]
  have ht : (⟨t.toList⟩ : String) = t := rfl
  rw [ht]
  simp [tokFinish]

/-- C7: `parse_video_suggestions` tolerates free text around the video
elements by wrapping the input in a synthetic root element before parsing:
the `<video>` element for "desert" followed by any (markup-free, nonempty)
trailing prose yields exactly one suggestion with query `desert`, start 0.0
and end 3.2. -/
theorem parse_trailing_prose (t : String) (hne : t.toList ≠ [])
    (hlt : ∀ c ∈ t.toList, c ≠ '<') :
    parse_video_suggestions
      ("<video><query>desert</query><start>0</start><end>3.2</end></video>" ++ t) =
      .ok [⟨some "desert", 0, 16 / 5⟩] := by
  have hroot : ET_fromstring ("<root>" ++
      ("<video><query>desert</query><start>0</start><end>3.2</end></video>" ++ t) ++
      "</root>") =
      some (XNode.elem "root"
        [XNode.elem "video"
          [XNode.elem "query" [XNode.text "desert"],
           XNode.elem "start" [XNode.text "0"],
           XNode.elem "end" [XNode.text "3.2"]],
         XNode.text t]) := by
    unfold ET_fromstring
    rw [tokenize_video_prose t hne hlt]
    rfl
  rw [parse_of_root _ _ hroot]
  have hf : findall
      (XNode.elem "root"
        [XNode.elem "video"
          [XNode.elem "query" [XNode.text "desert"],
           XNode.elem "start" [XNode.text "0"],
           XNode.elem "end" [XNode.text "3.2"]],
         XNode.text t]) "video" =
      [XNode.elem "video"
          [XNode.elem "query" [XNode.text "desert"],
           XNode.elem "start" [XNode.text "0"],
           XNode.elem "end" [XNode.text "3.2"]]] := rfl
  rw [hf]
  have he : extractAll [XNode.elem "video"
          [XNode.elem "query" [XNode.text "desert"],
           XNode.elem "start" [XNode.text "0"],
           XNode.elem "end" [XNode.text "3.2"]]] =
      some [⟨some "desert", 0, 16 / 5⟩] := by
    simp [extractAll, extractOne, findChild, childTag, XNode.textOf, pyFloatOfText,
      pyFloat, digitsVal]
    norm_num
  rw [he]

theorem parse_trailing_prose_witness :
    " Hope these clips fit the recitation.".toList ≠ [] ∧
    (∀ c ∈ " Hope these clips fit the recitation.".toList, c ≠ '<') ∧
    parse_video_suggestions
      ("<video><query>desert</query><start>0</start><end>3.2</end></video>" ++
        " Hope these clips fit the recitation.") =
      .ok [⟨some "desert", 0, 16 / 5⟩] :=
  ⟨by decide, by decide, parse_trailing_prose _ (by decide) (by decide)⟩

theorem insertSeg_perm (s : VideoSegment) (l : List VideoSegment) :
    (insertSeg s l).Perm (s :: l) := by
  induction l with
  | nil => simp [insertSeg]
  | cons t ts ih =>
    unfold insertSeg
    by_cases h : s.start_time ≤ t.start_time
    · simp [h]
    · simp only [if_neg h]
      exact (ih.cons t).trans (List.Perm.swap s t ts)

theorem sortByStart_perm (l : List VideoSegment) : (sortByStart l).Perm l := by
  induction l with
  | nil => simp [sortByStart]
  | cons s ss ih => exact (insertSeg_perm s (sortByStart ss)).trans (ih.cons s)

theorem mem_sortByStart {x : VideoSegment} {l : List VideoSegment} :
    x ∈ sortByStart l ↔ x ∈ l :=
  (sortByStart_perm l).mem_iff

theorem sortByStart_ne_nil {l : List VideoSegment} (h : l ≠ []) :
    sortByStart l ≠ [] := by
  intro hc
  have hp := sortByStart_perm l
  rw [hc] at hp
  exact h (hp.symm.eq_nil)

theorem setFirstStart_ne_nil {v : ℚ} {l : List VideoSegment} (h : l ≠ []) :
    setFirstStart v l ≠ [] := by
  cases l with
  | nil => exact absurd rfl h
  | cons s ss => simp [setFirstStart]

theorem setLastEnd_ne_nil {v : ℚ} {l : List VideoSegment} (h : l ≠ []) :
    setLastEnd v l ≠ [] := by
  cases l with
  | nil => exact absurd rfl h
  | cons s ss => cases ss <;> simp [setLastEnd]

theorem resolveAux_ne_nil (s : VideoSegment) (l : List VideoSegment) :
    resolveAux s l ≠ [] := by
  cases l with
  | nil => simp [resolveAux]
  | cons t ts =>
    unfold resolveAux
    split
    · simp
    · split <;> simp

theorem head_start_setLastEnd (v : ℚ) (l : List VideoSegment) :
    ((setLastEnd v l).head?).map (fun s => s.start_time) =
      (l.head?).map (fun s => s.start_time) := by
  cases l with
  | nil => rfl
  | cons s ss => cases ss <;> rfl

theorem head_start_setFirstStart (v : ℚ) (l : List VideoSegment) (h : l ≠ []) :
    ((setFirstStart v l).head?).map (fun s => s.start_time) = some v := by
  cases l with
  | nil => exact absurd rfl h
  | cons s ss => rfl

theorem head_start_resolveAux (s : VideoSegment) (l : List VideoSegment) :
    ((resolveAux s l).head?).map (fun u => u.start_time) = some s.start_time := by
  cases l with
  | nil => rfl
  | cons t ts =>
    unfold resolveAux
    split
    · simp
    · split <;> simp

theorem last_end_setFirstStart (v : ℚ) (l : List VideoSegment) :
    ((setFirstStart v l).getLast?).map (fun s => s.end_time) =
      (l.getLast?).map (fun s => s.end_time) := by
  cases l with
  | nil => rfl
  | cons s ss =>
    cases ss with
    | nil => rfl
    | cons t ts => simp [setFirstStart, List.getLast?_cons_cons]

theorem last_end_setLastEnd (v : ℚ) (l : List VideoSegment) (h : l ≠ []) :
    ((setLastEnd v l).getLast?).map (fun s => s.end_time) = some v := by
  induction l with
  | nil => exact absurd rfl h
  | cons s ss ih =>
    cases ss with
    | nil => rfl
    | cons t ts =>
      have hne : setLastEnd v (t :: ts) ≠ [] := setLastEnd_ne_nil (by simp)
      obtain ⟨u, us, hu⟩ := List.exists_cons_of_ne_nil hne
      calc ((setLastEnd v (s :: t :: ts)).getLast?).map (fun s => s.end_time)
          = ((s :: setLastEnd v (t :: ts)).getLast?).map (fun s => s.end_time) := rfl
        _ = ((setLastEnd v (t :: ts)).getLast?).map (fun s => s.end_time) := by
            rw [hu, List.getLast?_cons_cons]
        _ = some v := ih (by simp)

theorem last_end_resolveAux (s : VideoSegment) (l : List VideoSegment) :
    ((resolveAux s l).getLast?).map (fun u => u.end_time) =
      (((s :: l).getLast?)).map (fun u => u.end_time) := by
  induction l generalizing s with
  | nil => rfl
  | cons t ts ih =>
    unfold resolveAux
    split
    · rw [List.getLast?_cons_cons]
      obtain ⟨u, us, hu⟩ := List.exists_cons_of_ne_nil (resolveAux_ne_nil t ts)
      rw [hu, List.getLast?_cons_cons, ← hu, ih t]
    · split
      · rw [List.getLast?_cons_cons]
        obtain ⟨u, us, hu⟩ :=
          List.exists_cons_of_ne_nil (resolveAux_ne_nil { t with start_time := s.end_time } ts)
        rw [hu, List.getLast?_cons_cons, ← hu,
          ih { t with start_time := s.end_time }]
        cases ts <;> rfl
      · rw [List.getLast?_cons_cons]
        obtain ⟨u, us, hu⟩ := List.exists_cons_of_ne_nil (resolveAux_ne_nil t ts)
        rw [hu, List.getLast?_cons_cons, ← hu, ih t]

theorem resolveAux_head_decomp (s : VideoSegment) (l : List VideoSegment) :
    ∃ v rest, resolveAux s l = { s with end_time := v } :: rest := by
  cases l with
  | nil => exact ⟨s.end_time, [], rfl⟩
  | cons t ts =>
    unfold resolveAux
    split
    · exact ⟨t.start_time, _, rfl⟩
    · split
      · exact ⟨s.end_time, _, rfl⟩
      · exact ⟨s.end_time, _, rfl⟩

theorem resolveAux_chain (s : VideoSegment) (l : List VideoSegment) :
    List.Chain' (fun a b => a.end_time = b.start_time) (resolveAux s l) := by
  induction l generalizing s with
  | nil => simp [resolveAux]
  | cons t ts ih =>
    have hcons : ∀ (a x : VideoSegment), a.end_time = x.start_time →
        List.Chain' (fun u v => u.end_time = v.start_time) (a :: resolveAux x ts) := by
      intro a x hax
      obtain ⟨v, rest, hdec⟩ := resolveAux_head_decomp x ts
      rw [hdec]
      refine List.chain'_cons.mpr ⟨hax, ?_⟩
      rw [← hdec]
      exact ih x
    unfold resolveAux
    split
    next hlt => exact hcons _ t rfl
    next hnlt =>
      split
      next hlt2 => exact hcons s _ rfl
      next hnlt2 =>
        exact hcons s t (le_antisymm (not_lt.mp hnlt2) (not_lt.mp hnlt))

theorem resolvePass_chain (l : List VideoSegment) :
    List.Chain' (fun a b => a.end_time = b.start_time) (resolvePass l) := by
  cases l with
  | nil => simp [resolvePass]
  | cons s rest => exact resolveAux_chain s rest

theorem resolvePass_ne_nil {l : List VideoSegment} (h : l ≠ []) :
    resolvePass l ≠ [] := by
  cases l with
  | nil => exact absurd rfl h
  | cons s rest => exact resolveAux_ne_nil s rest

theorem head_start_resolvePass (l : List VideoSegment) :
    ((resolvePass l).head?).map (fun u => u.start_time) =
      (l.head?).map (fun u => u.start_time) := by
  cases l with
  | nil => rfl
  | cons s rest => simp [resolvePass, head_start_resolveAux]

theorem last_end_resolvePass (l : List VideoSegment) :
    ((resolvePass l).getLast?).map (fun u => u.end_time) =
      (l.getLast?).map (fun u => u.end_time) := by
  cases l with
  | nil => rfl
  | cons s rest => exact last_end_resolveAux s rest

theorem reconResolved_chain (sugs : List VideoSegment) (ts te : ℚ) :
    List.Chain' (fun a b => a.end_time = b.start_time)
      (reconResolved sugs ts te) :=
  resolvePass_chain _

theorem reconResolved_ne_nil {sugs : List VideoSegment} (ts te : ℚ)
    (h : sugs ≠ []) : reconResolved sugs ts te ≠ [] :=
  resolvePass_ne_nil (setFirstStart_ne_nil (setLastEnd_ne_nil (sortByStart_ne_nil h)))

theorem reconResolved_head_start {sugs : List VideoSegment} (ts te : ℚ)
    (h : sugs ≠ []) :
    ((reconResolved sugs ts te).head?).map (fun u => u.start_time) = some ts := by
  unfold reconResolved reconClamped
  rw [head_start_resolvePass]
  exact head_start_setFirstStart ts _ (setLastEnd_ne_nil (sortByStart_ne_nil h))

theorem reconResolved_last_end {sugs : List VideoSegment} (ts te : ℚ)
    (h : sugs ≠ []) :
    ((reconResolved sugs ts te).getLast?).map (fun u => u.end_time) = some te := by
  unfold reconResolved reconClamped
  rw [last_end_resolvePass, last_end_setFirstStart]
  exact last_end_setLastEnd te _ (sortByStart_ne_nil h)

theorem chain_pairwise :
    ∀ (l : List VideoSegment),
      List.Chain' (fun a b => a.end_time = b.start_time) l →
      (∀ u ∈ l, u.start_time < u.end_time) →
      l.Pairwise (fun a b => a.end_time ≤ b.start_time)
  | [], _, _ => List.Pairwise.nil
  | [s], _, _ => by simp
  | s :: t :: ts, hch, hp => by
    have hE := (List.chain'_cons.mp hch).1
    have ih := chain_pairwise (t :: ts) (List.chain'_cons.mp hch).2
      (fun u hu => hp u (List.mem_cons_of_mem _ hu))
    rw [List.pairwise_cons]
    refine ⟨?_, ih⟩
    intro b hb
    rcases List.mem_cons.mp hb with rfl | hb'
    · exact le_of_eq hE
    · have hrel := (List.pairwise_cons.mp ih).1 b hb'
      have htlt : t.start_time < t.end_time := hp t (by simp)
      calc s.end_time = t.start_time := hE
        _ ≤ t.end_time := le_of_lt htlt
        _ ≤ b.start_time := hrel

theorem chain_tiles :
    ∀ (s : VideoSegment) (l : List VideoSegment),
      List.Chain' (fun a b => a.end_time = b.start_time) (s :: l) →
      (∀ u ∈ s :: l, u.start_time < u.end_time) →
      ∀ x : ℚ, (∃ u ∈ s :: l, u.start_time ≤ x ∧ x < u.end_time) ↔
        (s.start_time ≤ x ∧
          x < ((s :: l).getLast (List.cons_ne_nil s l)).end_time)
  | s, [], _, _ => by simp [List.getLast]
  | s, t :: ts, hch, hp => by
    intro x
    have hE := (List.chain'_cons.mp hch).1
    have ih := chain_tiles t ts (List.chain'_cons.mp hch).2
      (fun u hu => hp u (List.mem_cons_of_mem _ hu))
    have hlast : ((s :: t :: ts).getLast (List.cons_ne_nil _ _)) =
        ((t :: ts).getLast (List.cons_ne_nil _ _)) := by
      rw [List.getLast_cons]
    rw [hlast]
    have hslt : s.start_time < s.end_time := hp s (by simp)
    have htle : t.start_time < ((t :: ts).getLast (List.cons_ne_nil _ _)).end_time := by
      have := (ih t.start_time).mp ⟨t, by simp, le_refl _, hp t (by simp)⟩
      exact this.2
    constructor
    · rintro ⟨u, hu, hux, hxu⟩
      rcases List.mem_cons.mp hu with rfl | hu'
      · refine ⟨hux, ?_⟩
        calc x < u.end_time := hxu
          _ = t.start_time := hE
          _ < _ := htle
      · have := (ih x).mp ⟨u, hu', hux, hxu⟩
        refine ⟨?_, this.2⟩
        calc s.start_time ≤ s.end_time := le_of_lt hslt
          _ = t.start_time := hE
          _ ≤ x := this.1
    · rintro ⟨hsx, hxl⟩
      by_cases hxe : x < s.end_time
      · exact ⟨s, by simp, hsx, hxe⟩
      · have hx : t.start_time ≤ x := by
          rw [← hE]; exact not_lt.mp hxe
        obtain ⟨u, hu, hux, hxu⟩ := (ih x).mpr ⟨hx, hxl⟩
        exact ⟨u, List.mem_cons_of_mem _ hu, hux, hxu⟩

theorem sorted_any_false {sugs : List VideoSegment} (h2 : allProper sugs = true) :
    (sortByStart sugs).any (fun s => decide (s.end_time ≤ s.start_time)) = false := by
  rw [List.any_eq_false]
  intro s hs
  have h2' := h2
  unfold allProper at h2'
  rw [List.all_eq_true] at h2'
  have := of_decide_eq_true (h2' s (mem_sortByStart.mp hs))
  simp only [decide_eq_true_eq]
  linarith

theorem noDrop_proper {sugs : List VideoSegment} {ts te : ℚ}
    (h3 : noDropB sugs ts te = true) :
    ∀ u ∈ reconResolved sugs ts te, u.start_time < u.end_time := by
  intro u hu
  have h3' := h3
  unfold noDropB allProper at h3'
  rw [List.all_eq_true] at h3'
  exact of_decide_eq_true (h3' u hu)

theorem reconcile_ok_noDrop (sugs : List VideoSegment) (ts te : ℚ)
    (h2 : allProper sugs = true) (h3 : noDropB sugs ts te = true) :
    reconcile sugs ts te = .ok (reconResolved sugs ts te) := by
  unfold reconcile
  rw [sorted_any_false h2]
  simp only [Bool.false_eq_true, if_false]
  congr 1
  apply List.filter_eq_self.mpr
  intro a ha
  exact decide_eq_true (noDrop_proper h3 a ha)

/-- C1 (amended): for any nonempty suggestion list whose every element has
`end_time > start_time`, over any span `[T_start, T_end)`, provided the
resolution pass leaves every segment proper (no segment is dropped), the
Reconciler succeeds and its output is pairwise non-overlapping, sorted by
`start_time`, and its union of `[start_time, end_time)` intervals equals
exactly `[T_start, T_end)`; in particular the gap in the spec's example is
closed by extending the earlier segment's end to the later segment's
start. -/
theorem reconciler_totality_amended (sugs : List VideoSegment) (ts te : ℚ)
    (h1 : sugs ≠ []) (h2 : allProper sugs = true)
    (h3 : noDropB sugs ts te = true) :
    reconcile sugs ts te = .ok (reconResolved sugs ts te) ∧
    SegsDisjoint (reconResolved sugs ts te) ∧
    SegsSorted (reconResolved sugs ts te) ∧
    SegsCover (reconResolved sugs ts te) ts te ∧
    reconcile [⟨"sky", 0, 4⟩, ⟨"ocean", 6, 57/5⟩] 0 (57/5) =
      .ok [⟨"sky", 0, 6⟩, ⟨"ocean", 6, 57/5⟩] := by
  have hprop := noDrop_proper h3
  have hch := reconResolved_chain sugs ts te
  have hP := chain_pairwise _ hch hprop
  refine ⟨reconcile_ok_noDrop sugs ts te h2 h3, ?_, ?_, ?_, ?_⟩
  · exact hP.imp (fun h => Or.inl h)
  · exact hP.imp_of_mem (fun ha hb hr =>
      le_trans (le_of_lt (hprop _ ha)) hr)
  · unfold SegsCover
    obtain ⟨s, l, hdec⟩ :=
      List.exists_cons_of_ne_nil (reconResolved_ne_nil ts te h1)
    have hhead := reconResolved_head_start ts te h1
    have hlastq := reconResolved_last_end ts te h1
    rw [hdec] at hch hprop hhead hlastq ⊢
    have hs : s.start_time = ts := by simpa using hhead
    have hl : ((s :: l).getLast (List.cons_ne_nil s l)).end_time = te := by
      rw [List.getLast?_eq_getLast _ (List.cons_ne_nil s l)] at hlastq
      simpa using hlastq
    intro x
    rw [← hs, ← hl]
    exact chain_tiles s l hch hprop x
  · norm_num [reconcile, reconResolved, reconClamped, sortByStart, insertSeg,
      setFirstStart, setLastEnd, resolvePass, resolveAux]

theorem reconciler_totality_amended_witness :
    ([⟨"sky", 0, 4⟩, ⟨"ocean", 6, 12⟩] : List VideoSegment) ≠ [] ∧
    allProper [⟨"sky", 0, 4⟩, ⟨"ocean", 6, 12⟩] = true ∧
    noDropB [⟨"sky", 0, 4⟩, ⟨"ocean", 6, 12⟩] 0 12 = true ∧
    SegsCover (reconResolved [⟨"sky", 0, 4⟩, ⟨"ocean", 6, 12⟩] 0 12) 0 12 :=
  ⟨by decide, by decide, by decide,
    (reconciler_totality_amended [⟨"sky", 0, 4⟩, ⟨"ocean", 6, 12⟩] 0 12
      (by decide) (by decide) (by decide)).2.2.2.1⟩

theorem insertSeg_of_le (s : VideoSegment) (l : List VideoSegment)
    (h : ∀ u ∈ l, s.start_time ≤ u.start_time) : insertSeg s l = s :: l := by
  cases l with
  | nil => rfl
  | cons t ts => simp [insertSeg, h t (by simp)]

theorem sortByStart_sorted_id (l : List VideoSegment)
    (h : l.Pairwise (fun a b => a.start_time ≤ b.start_time)) :
    sortByStart l = l := by
  induction l with
  | nil => rfl
  | cons s ss ih =>
    rw [List.pairwise_cons] at h
    unfold sortByStart
    rw [ih h.2, insertSeg_of_le s ss h.1]

theorem setFirstStart_id (l : List VideoSegment) (v : ℚ)
    (h : (l.head?).map (fun u => u.start_time) = some v) :
    setFirstStart v l = l := by
  cases l with
  | nil => rfl
  | cons s ss =>
    have hv : s.start_time = v := by simpa using h
    show ({ s with start_time := v } : VideoSegment) :: ss = s :: ss
    rw [← hv]

theorem setLastEnd_id (l : List VideoSegment) (v : ℚ)
    (h : (l.getLast?).map (fun u => u.end_time) = some v) :
    setLastEnd v l = l := by
  induction l with
  | nil => rfl
  | cons s ss ih =>
    cases ss with
    | nil =>
      have hv : s.end_time = v := by simpa [List.getLast?] using h
      show [({ s with end_time := v } : VideoSegment)] = [s]
      rw [← hv]
    | cons t ts =>
      show s :: setLastEnd v (t :: ts) = s :: t :: ts
      rw [ih (by rw [List.getLast?_cons_cons] at h; exact h)]

theorem resolveAux_id (s : VideoSegment) (l : List VideoSegment)
    (h : List.Chain' (fun a b => a.end_time = b.start_time) (s :: l)) :
    resolveAux s l = s :: l := by
  induction l generalizing s with
  | nil => rfl
  | cons t ts ih =>
    have hE := (List.chain'_cons.mp h).1
    unfold resolveAux
    rw [if_neg (by rw [hE]; exact lt_irrefl _),
      if_neg (by rw [hE]; exact lt_irrefl _)]
    rw [ih t (List.chain'_cons.mp h).2]

theorem resolvePass_id (l : List VideoSegment)
    (h : List.Chain' (fun a b => a.end_time = b.start_time) l) :
    resolvePass l = l := by
  cases l with
  | nil => rfl
  | cons s ss => exact resolveAux_id s ss h

/-- C8 (amended): for every nonempty suggestion list with all
`end_time > start_time` on which the Reconciler succeeds without the
resolution pass dropping any segment, applying the Reconciler a second time
to its own output (with the same timeline span) returns that output
unchanged. -/
theorem reconciler_idempotent_amended (sugs out : List VideoSegment)
    (ts te : ℚ) (h1 : sugs ≠ []) (h2 : allProper sugs = true)
    (h3 : noDropB sugs ts te = true)
    (hrun : reconcile sugs ts te = .ok out) :
    reconcile out ts te = .ok out := by
  have hout : out = reconResolved sugs ts te := by
    have hok := reconcile_ok_noDrop sugs ts te h2 h3
    rw [hrun] at hok
    exact Except.ok.inj hok
  subst hout
  have hprop := noDrop_proper h3
  have hch := reconResolved_chain sugs ts te
  have hsorted : (reconResolved sugs ts te).Pairwise
      (fun a b => a.start_time ≤ b.start_time) :=
    (chain_pairwise _ hch hprop).imp_of_mem
      (fun ha hb hr => le_trans (le_of_lt (hprop _ ha)) hr)
  have hne : reconResolved sugs ts te ≠ [] := reconResolved_ne_nil ts te h1
  have hap : allProper (reconResolved sugs ts te) = true := by
    unfold allProper
    rw [List.all_eq_true]
    intro u hu
    exact decide_eq_true (hprop u hu)
  unfold reconcile
  rw [sorted_any_false hap]
  simp only [Bool.false_eq_true, if_false]
  have hres : reconResolved (reconResolved sugs ts te) ts te =
      reconResolved sugs ts te := by
    show resolvePass (setFirstStart ts (setLastEnd te
      (sortByStart (reconResolved sugs ts te)))) = reconResolved sugs ts te
    rw [sortByStart_sorted_id _ hsorted,
      setLastEnd_id _ te (reconResolved_last_end ts te h1),
      setFirstStart_id _ ts (reconResolved_head_start ts te h1)]
    exact resolvePass_id _ hch
  rw [hres]
  congr 1
  apply List.filter_eq_self.mpr
  intro a ha
  exact decide_eq_true (hprop a ha)

theorem reconciler_idempotent_amended_witness :
    ([⟨"sky", 0, 4⟩, ⟨"ocean", 6, 12⟩] : List VideoSegment) ≠ [] ∧
    allProper [⟨"sky", 0, 4⟩, ⟨"ocean", 6, 12⟩] = true ∧
    noDropB [⟨"sky", 0, 4⟩, ⟨"ocean", 6, 12⟩] 0 12 = true ∧
    reconcile [⟨"sky", 0, 4⟩, ⟨"ocean", 6, 12⟩] 0 12 =
      .ok (reconResolved [⟨"sky", 0, 4⟩, ⟨"ocean", 6, 12⟩] 0 12) ∧
    reconcile (reconResolved [⟨"sky", 0, 4⟩, ⟨"ocean", 6, 12⟩] 0 12) 0 12 =
      .ok (reconResolved [⟨"sky", 0, 4⟩, ⟨"ocean", 6, 12⟩] 0 12) :=
  ⟨by decide, by decide, by decide, by decide,
    reconciler_idempotent_amended [⟨"sky", 0, 4⟩, ⟨"ocean", 6, 12⟩] _ 0 12
      (by decide) (by decide) (by decide) (by decide)⟩

theorem adjOk_cons {s t : TsSegment} {ts : List TsSegment}
    (h : adjOk (s :: t :: ts) = true) :
    s.«end» ≤ t.start ∧ adjOk (t :: ts) = true := by
  unfold adjOk at h
  rw [Bool.and_eq_true] at h
  exact ⟨of_decide_eq_true h.1, h.2⟩

theorem adjOk_take :
    ∀ (l : List TsSegment) (n : Nat), adjOk l = true → adjOk (l.take n) = true
  | [], n, _ => by simp [adjOk]
  | [s], n, _ => by cases n <;> simp [adjOk]
  | s :: t :: ts, 0, _ => by simp [adjOk]
  | s :: t :: ts, 1, _ => by simp [adjOk]
  | s :: t :: ts, (n + 2), h => by
    obtain ⟨h1, h2⟩ := adjOk_cons h
    have ih := adjOk_take (t :: ts) (n + 1) h2
    show adjOk (s :: t :: List.take n ts) = true
    unfold adjOk
    rw [Bool.and_eq_true]
    exact ⟨decide_eq_true h1, ih⟩

theorem adjOk_chain :
    ∀ (l : List TsSegment), adjOk l = true →
      List.Chain' (fun s t => s.«end» ≤ t.start) l
  | [], _ => List.chain'_nil
  | [s], _ => List.chain'_singleton s
  | s :: t :: ts, h => by
    obtain ⟨h1, h2⟩ := adjOk_cons h
    exact List.chain'_cons.mpr ⟨h1, adjOk_chain (t :: ts) h2⟩

theorem segEnds_le_last :
    ∀ (segs : List TsSegment), adjOk segs = true →
      (∀ s ∈ segs, segProper s = true) →
      ∀ sg ∈ segs, ∀ u ∈ segs.getLast?, sg.«end» ≤ u.«end»
  | [], _, _ => by simp
  | [s], _, _ => by
    intro sg hsg u hu
    simp at hsg hu
    simp [hsg, ← hu]
  | s :: t :: ts, hadj, hprop => by
    intro sg hsg u hu
    obtain ⟨h1, h2⟩ := adjOk_cons hadj
    have ih := segEnds_le_last (t :: ts)  h2
      (fun x hx => hprop x (List.mem_cons_of_mem _ hx))
    rw [List.getLast?_cons_cons] at hu
    rcases List.mem_cons.mp hsg with rfl | hsg'
    · have htu := ih t (by simp) u hu
      have htp : t.start ≤ t.«end» := by
        have := hprop t (by simp)
        unfold segProper at this
        rw [Bool.and_eq_true] at this
        exact of_decide_eq_true this.2
      calc sg.«end» ≤ t.start := h1
        _ ≤ t.«end» := htp
        _ ≤ u.«end» := htu
    · exact ih sg hsg' u hu

theorem processSegs_eq (st : Stores) (surah aya : Nat) (words : List String)
    (offset : ℚ) :
    ∀ (segs : List TsSegment) (i : Nat) (ws : List WordInfo),
      processSegs st surah aya words offset segs i = some ws →
      ws = (segs.take (words.length - i)).map (mkRecD st surah aya words offset)
  | [], i, ws, h => by
    unfold processSegs at h
    injection h with h
    simp [← h]
  | seg :: rest, i, ws, h => by
    unfold processSegs at h
    by_cases hi : i ≥ words.length
    · rw [if_pos hi] at h
      injection h with h
      have hz : words.length - i = 0 := by omega
      simp [hz, ← h]
    · rw [if_neg hi] at h
      cases hw : pyGet words (seg.pos - 1) with
      | none => rw [hw] at h; cases h
      | some w =>
        cases htr : st.translation surah aya seg.pos with
        | none => rw [hw, htr] at h; cases h
        | some tr =>
          rw [hw, htr] at h
          cases hrec : processSegs st surah aya words offset rest (i + 1) with
          | none => rw [hrec] at h; cases h
          | some out =>
            have hout := processSegs_eq st surah aya words offset rest (i + 1) out hrec
            rw [hrec] at h
            injection h with h
            have hlen : words.length - i = (words.length - (i + 1)) + 1 := by omega
            rw [hlen, List.take_succ_cons, List.map_cons]
            rw [← h, hout]
            unfold mkRecD
            simp [hw, htr]

theorem mapped_ws_chain (st : Stores) (surah aya : Nat) (words : List String)
    (offset : ℚ) (segs : List TsSegment) (hadj : adjOk segs = true) :
    List.Chain' (fun w w' => w.«end» ≤ w'.start)
      (segs.map (mkRecD st surah aya words offset)) := by
  rw [List.chain'_map]
  refine (adjOk_chain segs hadj).imp ?_
  intro a b hab
  show a.«end» + offset ≤ b.start + offset
  linarith

theorem mapped_ws_mem (st : Stores) (surah aya : Nat) (words : List String)
    (offset : ℚ) (segs : List TsSegment)
    (hprop : ∀ s ∈ segs, segProper s = true) (hoff : 0 ≤ offset) :
    ∀ w ∈ segs.map (mkRecD st surah aya words offset),
      offset ≤ w.start ∧ 0 ≤ w.start ∧ w.start ≤ w.«end» := by
  intro w hw
  obtain ⟨sg, hsg, rfl⟩ := List.mem_map.mp hw
  have hp := hprop sg hsg
  unfold segProper at hp
  rw [Bool.and_eq_true] at hp
  have h0 := of_decide_eq_true hp.1
  have hse := of_decide_eq_true hp.2
  refine ⟨?_, ?_, ?_⟩ <;> show _ ≤ _ <;> unfold mkRecD <;> simp <;> linarith

theorem mapped_ws_ends (st : Stores) (surah aya : Nat) (words : List String)
    (offset : ℚ) (segs : List TsSegment) (n : Nat)
    (hadj : adjOk segs = true) (hprop : ∀ s ∈ segs, segProper s = true)
    (d : ℚ) (hd : ∀ u ∈ segs.getLast?, u.«end» ≤ d) :
    ∀ w ∈ (segs.take n).map (mkRecD st surah aya words offset),
      w.«end» ≤ offset + d := by
  intro w hw
  obtain ⟨sg, hsg, rfl⟩ := List.mem_map.mp hw
  have hsg' : sg ∈ segs := List.take_subset n segs hsg
  obtain ⟨u, hu⟩ : ∃ u, segs.getLast? = some u := by
    cases hl : segs.getLast? with
    | none =>
      rw [List.getLast?_eq_none_iff] at hl
      subst hl
      cases hsg'
    | some u => exact ⟨u, rfl⟩
  have hle := segEnds_le_last segs hadj hprop sg hsg' u (by simp [hu])
  have hud : u.«end» ≤ d := hd u (by simp [hu])
  show sg.«end» + offset ≤ offset + d
  linarith

theorem entryOk_parts {e : TimestampEntry} (h : entryOk e = true) :
    (∀ s ∈ e.segments, segProper s = true) ∧ adjOk e.segments = true ∧
    (∀ d, e.duration = some d →
      0 ≤ d ∧ ∀ u ∈ e.segments.getLast?, u.«end» ≤ d) := by
  unfold entryOk at h
  rw [Bool.and_eq_true, Bool.and_eq_true] at h
  obtain ⟨⟨hall, hadj⟩, hdur⟩ := h
  refine ⟨fun s hs => List.all_eq_true.mp hall s hs, hadj, ?_⟩
  intro d hd
  rw [hd] at hdur
  simp only [] at hdur
  rw [Bool.and_eq_true] at hdur
  refine ⟨of_decide_eq_true hdur.1, ?_⟩
  intro u hu
  cases hl : e.segments.getLast? with
  | none => simp [hl] at hu
  | some v =>
    rw [hl] at hdur
    have huv : v = u := by simpa [hl] using hu
    subst huv
    exact of_decide_eq_true hdur.2

theorem wordEnds_le_last :
    ∀ (l : List WordInfo),
      List.Chain' (fun w w' => w.«end» ≤ w'.start) l →
      (∀ w ∈ l, w.start ≤ w.«end») →
      ∀ w ∈ l, ∀ u ∈ l.getLast?, w.«end» ≤ u.«end»
  | [], _, _ => by simp
  | [s], _, _ => by
    intro w hw u hu
    simp at hw hu
    simp [hw, ← hu]
  | s :: t :: ts, hch, hse => by
    intro w hw u hu
    have ih := wordEnds_le_last (t :: ts) (List.chain'_cons.mp hch).2
      (fun x hx => hse x (List.mem_cons_of_mem _ hx))
    rw [List.getLast?_cons_cons] at hu
    rcases List.mem_cons.mp hw with rfl | hw'
    · have htu := ih t (by simp) u hu
      have h1 := (List.chain'_cons.mp hch).1
      have htp : t.start ≤ t.«end» := hse t (by simp)
      calc w.«end» ≤ t.start := h1
        _ ≤ t.«end» := htp
        _ ≤ u.«end» := htu
    · exact ih w hw' u hu

theorem processAya_inv (st : Stores) (surah aya : Nat)
    (hok : (match st.timestamps surah aya with
            | some e => entryOk e
            | none => true) = true)
    (acc : List WordInfo) (offset : ℚ) (acc' : List WordInfo) (offset' : ℚ)
    (h : processAya st surah aya acc offset = some (acc', offset'))
    (hch : List.Chain' (fun w w' => w.«end» ≤ w'.start) acc)
    (hbd : ∀ w ∈ acc, 0 ≤ w.start ∧ w.start ≤ w.«end» ∧ w.«end» ≤ offset)
    (hoff : 0 ≤ offset) :
    List.Chain' (fun w w' => w.«end» ≤ w'.start) acc' ∧
    (∀ w ∈ acc', 0 ≤ w.start ∧ w.start ≤ w.«end» ∧ w.«end» ≤ offset') ∧
    0 ≤ offset' := by
  unfold processAya at h
  cases hq : st.quran surah aya with
  | none =>
    rw [hq] at h
    simp only [Option.some.injEq, Prod.mk.injEq] at h
    obtain ⟨rfl, rfl⟩ := h.symm
    exact ⟨hch, hbd, hoff⟩
  | some text =>
    rw [hq] at h
    cases hts : st.timestamps surah aya with
    | none =>
      rw [hts] at h
      simp only [Option.some.injEq, Prod.mk.injEq] at h
      obtain ⟨rfl, rfl⟩ := h.symm
      exact ⟨hch, hbd, hoff⟩
    | some e =>
      rw [hts] at h
      simp only [] at h
      rw [hts] at hok
      obtain ⟨hprop, hadj, hdur⟩ := entryOk_parts hok
      cases hsegs : processSegs st surah aya (pySplit text) offset e.segments 0 with
      | none => rw [hsegs] at h; cases h
      | some ws =>
        rw [hsegs] at h
        have hws := processSegs_eq st surah aya (pySplit text) offset
          e.segments 0 ws hsegs
        rw [Nat.sub_zero] at hws
        have hadjT := adjOk_take e.segments (pySplit text).length hadj
        have hpropT : ∀ s ∈ e.segments.take (pySplit text).length,
            segProper s = true :=
          fun s hs => hprop s (List.take_subset _ _ hs)
        have hchw : List.Chain' (fun w w' => w.«end» ≤ w'.start) ws := by
          rw [hws]
          exact mapped_ws_chain st surah aya (pySplit text) offset _ hadjT
        have hmem : ∀ w ∈ ws, offset ≤ w.start ∧ 0 ≤ w.start ∧
            w.start ≤ w.«end» := by
          rw [hws]
          exact mapped_ws_mem st surah aya (pySplit text) offset _ hpropT hoff
        have hchacc' : List.Chain' (fun w w' => w.«end» ≤ w'.start)
            (acc ++ ws) := by
          refine List.Chain'.append hch hchw ?_
          intro x hx y hy
          have hxa : x ∈ acc := List.mem_of_mem_getLast? hx
          have hyw : y ∈ ws := List.mem_of_mem_head? hy
          calc x.«end» ≤ offset := (hbd x hxa).2.2
            _ ≤ y.start := (hmem y hyw).1
        cases hd : e.duration with
        | some d =>
          rw [hd] at h
          simp only [] at h
          simp only [Option.some.injEq, Prod.mk.injEq] at h
          obtain ⟨rfl, rfl⟩ := h.symm
          obtain ⟨hd0, hdlast⟩ := hdur d hd
          refine ⟨hchacc', ?_, by linarith⟩
          intro w hw
          rcases List.mem_append.mp hw with hw' | hw'
          · have hb := hbd w hw'
            exact ⟨hb.1, hb.2.1, by linarith [hb.2.2]⟩
          · have h1 := hmem w hw'
            have h2 : w.«end» ≤ offset + d := by
              rw [hws] at hw'
              exact mapped_ws_ends st surah aya (pySplit text) offset
                e.segments (pySplit text).length hadj hprop d hdlast w hw'
            exact ⟨h1.2.1, h1.2.2, h2⟩
        | none =>
          rw [hd] at h
          simp only [] at h
          cases hl : (acc ++ ws).getLast? with
          | none => rw [hl] at h; cases h
          | some wl =>
            rw [hl] at h
            simp only [Option.some.injEq, Prod.mk.injEq] at h
            obtain ⟨rfl, rfl⟩ := h.symm
            have hwl_mem : wl ∈ acc ++ ws := List.mem_of_mem_getLast? (by simp [hl])
            have hse : ∀ u ∈ acc ++ ws, u.start ≤ u.«end» := by
              intro u hu
              rcases List.mem_append.mp hu with h' | h'
              · exact (hbd u h').2.1
              · exact (hmem u h').2.2
            have hwl0 : 0 ≤ wl.«end» := by
              rcases List.mem_append.mp hwl_mem with h' | h'
              · have hb := hbd wl h'
                linarith [hb.1, hb.2.1]
              · have hm := hmem wl h'
                linarith [hm.2.1, hm.2.2]
            refine ⟨hchacc', ?_, by linarith⟩
            intro w hw
            have hwend := wordEnds_le_last (acc ++ ws) hchacc' hse w hw wl
              (by simp [hl])
            rcases List.mem_append.mp hw with h' | h'
            · have hb := hbd w h'
              exact ⟨hb.1, hb.2.1, by linarith⟩
            · have hm := hmem w h'
              exact ⟨hm.2.1, hm.2.2, by linarith⟩

theorem processRange_inv (st : Stores) (surah : Nat) :
    ∀ (ayas : List Nat) (acc : List WordInfo) (offset : ℚ) (l : List WordInfo),
      storeOk st surah ayas = true →
      processRange st surah ayas acc offset = some l →
      List.Chain' (fun w w' => w.«end» ≤ w'.start) acc →
      (∀ w ∈ acc, 0 ≤ w.start ∧ w.start ≤ w.«end» ∧ w.«end» ≤ offset) →
      0 ≤ offset →
      List.Chain' (fun w w' => w.«end» ≤ w'.start) l
  | [], acc, offset, l, _, h, hch, _, _ => by
    unfold processRange at h
    injection h with h
    rw [← h]
    exact hch
  | aya :: rest, acc, offset, l, hsok, h, hch, hbd, hoff => by
    unfold processRange at h
    have hsok' := hsok
    unfold storeOk at hsok'
    rw [List.all_eq_true] at hsok'
    have hok1 := hsok' aya (by simp)
    have hokrest : storeOk st surah rest = true := by
      unfold storeOk
      rw [List.all_eq_true]
      exact fun a ha => hsok' a (List.mem_cons_of_mem _ ha)
    cases hpa : processAya st surah aya acc offset with
    | none => rw [hpa] at h; cases h
    | some p =>
      obtain ⟨acc', offset'⟩ := p
      rw [hpa] at h
      obtain ⟨hch', hbd', hoff'⟩ :=
        processAya_inv st surah aya hok1 acc offset acc' offset' hpa hch hbd hoff
      exact processRange_inv st surah rest acc' offset' l hokrest h hch' hbd' hoff'

/-- C2: for every input whose timestamp-store entries are valid — segments
proper and in increasing non-overlapping order, declared durations
nonnegative and at least the last segment's local end — every word-record
sequence returned by `get_words_with_timestamps` is time-monotonic: each
record's end time is at most the next record's start time (in particular
across verse boundaries). -/
theorem timeline_monotone (st : Stores) (surah aya_start aya_end : Nat)
    (l : List WordInfo)
    (hok : storeOk st surah (List.range' aya_start (aya_end + 1 - aya_start)) = true)
    (hr : get_words_with_timestamps st surah aya_start aya_end = some l) :
    List.Chain' (fun w w' => w.«end» ≤ w'.start) l := by
  unfold get_words_with_timestamps at hr
  exact processRange_inv st surah _ [] 0 l hok hr List.chain'_nil (by simp)
    (le_refl 0)

theorem timeline_monotone_witness :
    storeOk stW 1 (List.range' 1 (2 + 1 - 1)) = true ∧
    get_words_with_timestamps stW 1 1 2 =
      some [⟨"alpha", 1, 1, 1, 0, 1, "first"⟩, ⟨"beta", 1, 1, 2, 1, 2, "second"⟩,
            ⟨"gamma", 1, 2, 1, 3, 5, "third"⟩] ∧
    List.Chain' (fun w w' => w.«end» ≤ w'.start)
      ([⟨"alpha", 1, 1, 1, 0, 1, "first"⟩, ⟨"beta", 1, 1, 2, 1, 2, "second"⟩,
        ⟨"gamma", 1, 2, 1, 3, 5, "third"⟩] : List WordInfo) := by
  have hget : get_words_with_timestamps stW 1 1 2 =
      some [⟨"alpha", 1, 1, 1, 0, 1, "first"⟩, ⟨"beta", 1, 1, 2, 1, 2, "second"⟩,
            ⟨"gamma", 1, 2, 1, 3, 5, "third"⟩] := by
    simp [get_words_with_timestamps, List.range', processRange, processAya,
      processSegs, pySplit, pySplitAux, pyGet, stW]
    norm_num
  exact ⟨by decide, hget, timeline_monotone stW 1 1 2 _ (by decide) hget⟩

theorem pyGet_some_of_bounds {α : Type} (l : List α) (pos : Int)
    (h1 : 1 ≤ pos) (h2 : pos ≤ (l.length : Int)) :
    ∃ w, pyGet l (pos - 1) = some w := by
  have hj : ¬ (pos - 1 < 0) := by omega
  have hcond : 0 ≤ pos - 1 ∧ pos - 1 < (l.length : Int) := ⟨by omega, by omega⟩
  unfold pyGet
  simp only [if_neg hj]
  rw [dif_pos hcond]
  exact ⟨_, rfl⟩

theorem processSegs_some (st : Stores) (surah aya : Nat) (words : List String)
    (offset : ℚ) :
    ∀ (segs : List TsSegment) (i : Nat),
      segs.length + i ≤ words.length →
      verseSegsOk st surah aya words segs = true →
      processSegs st surah aya words offset segs i =
        some (segs.map (mkRecD st surah aya words offset))
  | [], i, _, _ => by simp [processSegs]
  | seg :: rest, i, hlen, hok => by
    unfold processSegs
    have hi : ¬ i ≥ words.length := by
      simp only [List.length_cons] at hlen
      omega
    rw [if_neg hi]
    have hok' := hok
    unfold verseSegsOk at hok'
    rw [List.all_eq_true] at hok'
    have hs := hok' seg (by simp)
    rw [Bool.and_eq_true, Bool.and_eq_true] at hs
    obtain ⟨⟨hp1, hp2⟩, hp3⟩ := hs
    have hpos1 : 1 ≤ seg.pos := of_decide_eq_true hp1
    have hpos2 : seg.pos ≤ (words.length : Int) := of_decide_eq_true hp2
    obtain ⟨w, hw⟩ := pyGet_some_of_bounds words seg.pos hpos1 hpos2
    obtain ⟨tr, htr⟩ := Option.isSome_iff_exists.mp hp3
    rw [hw, htr]
    have hrest : verseSegsOk st surah aya words rest = true := by
      unfold verseSegsOk
      rw [List.all_eq_true]
      exact fun sg hsg => hok' sg (List.mem_cons_of_mem _ hsg)
    rw [processSegs_some st surah aya words offset rest (i + 1)
      (by simp only [List.length_cons] at hlen; omega) hrest]
    simp only [List.map_cons, Option.some.injEq]
    unfold mkRecD
    rw [hw, htr]
    simp

theorem processRange_spec (st : Stores) (surah : Nat) :
    ∀ (ayas : List Nat) (acc : List WordInfo) (offset : ℚ),
      ayas.all (fun a => verseOk st surah a) = true →
      processRange st surah ayas acc offset =
        some (acc ++ specTimeline st surah ayas offset)
  | [], acc, offset, _ => by simp [processRange, specTimeline]
  | aya :: rest, acc, offset, hok => by
    rw [List.all_eq_true] at hok
    have hok1 : verseOk st surah aya = true := hok aya (by simp)
    have hokr : rest.all (fun a => verseOk st surah a) = true := by
      rw [List.all_eq_true]
      exact fun a ha => hok a (List.mem_cons_of_mem _ ha)
    unfold processRange specTimeline
    cases hq : st.quran surah aya with
    | none =>
      have hpa : processAya st surah aya acc offset = some (acc, offset) := by
        unfold processAya
        rw [hq]
      rw [hpa]
      exact processRange_spec st surah rest acc offset hokr
    | some text =>
      cases hts : st.timestamps surah aya with
      | none =>
        have hpa : processAya st surah aya acc offset = some (acc, offset) := by
          unfold processAya
          rw [hq, hts]
        rw [hpa]
        exact processRange_spec st surah rest acc offset hokr
      | some e =>
        have hok1' := hok1
        unfold verseOk at hok1'
        rw [hq, hts] at hok1'
        simp only [] at hok1'
        rw [Bool.and_eq_true, Bool.and_eq_true] at hok1'
        obtain ⟨⟨hlen, hsegok⟩, hdur⟩ := hok1'
        have hlen' : e.segments.length ≤ (pySplit text).length :=
          of_decide_eq_true hlen
        have hps := processSegs_some st surah aya (pySplit text) offset
          e.segments 0 (by omega) hsegok
        have hws : specVerseWords st surah aya (pySplit text) e.segments offset =
            e.segments.map (mkRecD st surah aya (pySplit text) offset) := rfl
        cases hd : e.duration with
        | some d =>
          have hpa : processAya st surah aya acc offset =
              some (acc ++ e.segments.map (mkRecD st surah aya (pySplit text) offset),
                offset + d) := by
            unfold processAya
            rw [hq, hts]
            simp only []
            rw [hps]
            simp only []
            rw [hd]
          rw [hpa]
          simp only []
          rw [processRange_spec st surah rest _ _ hokr, hd]
          simp only [hws]
          simp [List.append_assoc]
        | none =>
          rw [hd] at hdur
          simp only [Option.isSome_none, Bool.false_or] at hdur
          have hsegne : e.segments ≠ [] := by
            intro hc
            rw [hc] at hdur
            simp at hdur
          have hwsne : e.segments.map (mkRecD st surah aya (pySplit text) offset) ≠ [] := by
            simpa using hsegne
          obtain ⟨wl, hwl⟩ : ∃ wl,
              (e.segments.map (mkRecD st surah aya (pySplit text) offset)).getLast? =
                some wl := by
            cases hgl : (e.segments.map (mkRecD st surah aya (pySplit text) offset)).getLast? with
            | none => rw [List.getLast?_eq_none_iff] at hgl; exact absurd hgl hwsne
            | some wl => exact ⟨wl, rfl⟩
          have hpa : processAya st surah aya acc offset =
              some (acc ++ e.segments.map (mkRecD st surah aya (pySplit text) offset),
                offset + wl.«end») := by
            unfold processAya
            rw [hq, hts]
            simp only []
            rw [hps]
            simp only []
            rw [hd]
            rw [List.getLast?_append_of_ne_nil _ hwsne, hwl]
          rw [hpa]
          simp only []
          rw [processRange_spec st surah rest _ _ hokr, hd]
          simp only [hws, hwl]
          simp [List.append_assoc]

/-- C4: `get_words_with_timestamps` computes absolute times by the claimed
algorithm — a running offset starting at zero; per verse, each segment's
1-based `word_position` selects the split word at `position - 1` and the
emitted record adds the offset to the segment's local start and end; after
each verse the offset advances by the declared audio duration when present
and otherwise by the end time of that verse's last emitted record — stated
as equality with the reference model `specTimeline`, for every valid range
(all positions in bounds, translations present, segment counts within word
counts, and a verse with null duration emitting at least one record). -/
theorem timeline_offset_algorithm (st : Stores) (surah aya_start aya_end : Nat)
    (hok : (List.range' aya_start (aya_end + 1 - aya_start)).all
      (fun a => verseOk st surah a) = true) :
    get_words_with_timestamps st surah aya_start aya_end =
      some (specTimeline st surah
        (List.range' aya_start (aya_end + 1 - aya_start)) 0) := by
  unfold get_words_with_timestamps
  rw [processRange_spec st surah _ [] 0 hok]
  simp

theorem timeline_offset_algorithm_witness :
    (List.range' 1 (2 + 1 - 1)).all (fun a => verseOk stW 1 a) = true ∧
    get_words_with_timestamps stW 1 1 2 =
      some (specTimeline stW 1 (List.range' 1 (2 + 1 - 1)) 0) :=
  ⟨by decide, timeline_offset_algorithm stW 1 1 2 (by decide)⟩

theorem processSegs_trunc (st : Stores) (surah aya : Nat) (words : List String)
    (offset : ℚ) :
    ∀ (segs : List TsSegment) (i : Nat),
      verseSegsOk st surah aya words (segs.take (words.length - i)) = true →
      processSegs st surah aya words offset segs i =
        some ((segs.take (words.length - i)).map
          (mkRecD st surah aya words offset))
  | [], i, _ => by simp [processSegs]
  | seg :: rest, i, hok => by
    unfold processSegs
    by_cases hi : i ≥ words.length
    · rw [if_pos hi]
      have hz : words.length - i = 0 := by omega
      simp [hz]
    · rw [if_neg hi]
      have hlen : words.length - i = (words.length - (i + 1)) + 1 := by omega
      rw [hlen] at hok ⊢
      rw [List.take_succ_cons] at hok ⊢
      have hok' := hok
      unfold verseSegsOk at hok'
      rw [List.all_eq_true] at hok'
      have hs := hok' seg (by simp)
      rw [Bool.and_eq_true, Bool.and_eq_true] at hs
      obtain ⟨⟨hp1, hp2⟩, hp3⟩ := hs
      obtain ⟨w, hw⟩ := pyGet_some_of_bounds words seg.pos
        (of_decide_eq_true hp1) (of_decide_eq_true hp2)
      obtain ⟨tr, htr⟩ := Option.isSome_iff_exists.mp hp3
      rw [hw, htr]
      have hrest : verseSegsOk st surah aya words
          (rest.take (words.length - (i + 1))) = true := by
        unfold verseSegsOk
        rw [List.all_eq_true]
        intro sg hsg
        exact hok' sg (List.mem_cons_of_mem _ hsg)
      rw [processSegs_trunc st surah aya words offset rest (i + 1) hrest]
      simp only [List.map_cons, Option.some.injEq]
      unfold mkRecD
      rw [hw, htr]
      simp

/-- C5: for a verse whose timestamp segment count exceeds its split word
count (its first word-count segments being in bounds with translations
present, and the verse having either a declared duration or a nonempty
word list), `get_words_with_timestamps` on that verse emits word records
for exactly the first word-count segments, silently drops the remaining
segments, and raises no exception. -/
theorem truncation_policy (st : Stores) (surah aya : Nat) (text : String)
    (e : TimestampEntry)
    (hq : st.quran surah aya = some text)
    (hts : st.timestamps surah aya = some e)
    (hgt : (pySplit text).length < e.segments.length)
    (hsegok : verseSegsOk st surah aya (pySplit text)
      (e.segments.take (pySplit text).length) = true)
    (hdw : e.duration.isSome = true ∨ pySplit text ≠ []) :
    get_words_with_timestamps st surah aya aya =
      some ((e.segments.take (pySplit text).length).map
        (mkRecD st surah aya (pySplit text) 0)) := by
  have h1 : aya + 1 - aya = 1 := by omega
  unfold get_words_with_timestamps
  rw [h1]
  have hr1 : List.range' aya 1 = [aya] := by simp [List.range']
  rw [hr1]
  have hps := processSegs_trunc st surah aya (pySplit text) 0 e.segments 0
    (by rw [Nat.sub_zero]; exact hsegok)
  rw [Nat.sub_zero] at hps
  unfold processRange processAya
  rw [hq, hts]
  simp only []
  rw [hps]
  simp only []
  cases hd : e.duration with
  | some d =>
    simp only []
    unfold processRange
    simp
  | none =>
    rw [hd] at hdw
    simp only [Option.isSome_none, Bool.false_eq_true, false_or] at hdw
    have hlenpos : 0 < (pySplit text).length := by
      cases hp : pySplit text with
      | nil => exact absurd hp hdw
      | cons a as => simp
    have hwsne : (e.segments.take (pySplit text).length).map
        (mkRecD st surah aya (pySplit text) 0) ≠ [] := by
      simp only [ne_eq, List.map_eq_nil_iff, List.take_eq_nil_iff]
      push_neg
      refine ⟨by omega, ?_⟩
      intro hc
      rw [hc] at hgt
      simp at hgt
    obtain ⟨wl, hwl⟩ : ∃ wl,
        ((e.segments.take (pySplit text).length).map
          (mkRecD st surah aya (pySplit text) 0)).getLast? = some wl := by
      cases hgl : ((e.segments.take (pySplit text).length).map
          (mkRecD st surah aya (pySplit text) 0)).getLast? with
      | none => rw [List.getLast?_eq_none_iff] at hgl; exact absurd hgl hwsne
      | some wl => exact ⟨wl, rfl⟩
    rw [List.nil_append, hwl]
    simp only []
    unfold processRange
    simp

theorem truncation_policy_witness :
    stTrunc.quran 1 1 = some "alpha beta" ∧
    stTrunc.timestamps 1 1 =
      some ⟨[⟨1, 0, 1⟩, ⟨2, 1, 2⟩, ⟨3, 2, 3⟩], some 4⟩ ∧
    (pySplit "alpha beta").length <
      ([⟨1, 0, 1⟩, ⟨2, 1, 2⟩, ⟨3, 2, 3⟩] : List TsSegment).length ∧
    get_words_with_timestamps stTrunc 1 1 1 =
      some ((([⟨1, 0, 1⟩, ⟨2, 1, 2⟩, ⟨3, 2, 3⟩] : List TsSegment).take
        (pySplit "alpha beta").length).map
          (mkRecD stTrunc 1 1 (pySplit "alpha beta") 0)) :=
  ⟨by decide, by decide, by decide,
    truncation_policy stTrunc 1 1 "alpha beta"
      ⟨[⟨1, 0, 1⟩, ⟨2, 1, 2⟩, ⟨3, 2, 3⟩], some 4⟩
      (by decide) (by decide) (by decide) (by decide) (Or.inl (by decide))⟩

theorem processAya_skip (st : Stores) (surah v : Nat) (acc : List WordInfo)
    (offset : ℚ)
    (hmiss : st.quran surah v = none ∨ st.timestamps surah v = none) :
    processAya st surah v acc offset = some (acc, offset) := by
  unfold processAya
  rcases hmiss with h | h
  · rw [h]
  · cases hq : st.quran surah v with
    | none => rfl
    | some text => rw [h]

theorem processRange_skip (st : Stores) (surah v : Nat)
    (hmiss : st.quran surah v = none ∨ st.timestamps surah v = none) :
    ∀ (ayas : List Nat) (acc : List WordInfo) (offset : ℚ),
      processRange st surah ayas acc offset =
        processRange st surah (ayas.filter (fun a => a ≠ v)) acc offset
  | [], _, _ => rfl
  | aya :: rest, acc, offset => by
    by_cases h : aya = v
    · have hf : (aya :: rest).filter (fun a => a ≠ v) =
          rest.filter (fun a => a ≠ v) := by
        simp [List.filter_cons, h]
      rw [hf]
      show (match processAya st surah aya acc offset with
            | none => none
            | some (acc', offset') => processRange st surah rest acc' offset') = _
      rw [h, processAya_skip st surah v acc offset hmiss]
      exact processRange_skip st surah v hmiss rest acc offset
    · have hf : (aya :: rest).filter (fun a => a ≠ v) =
          aya :: rest.filter (fun a => a ≠ v) := by
        simp [List.filter_cons, h]
      rw [hf]
      unfold processRange
      cases hpa : processAya st surah aya acc offset with
      | none => rfl
      | some p =>
        obtain ⟨a', o'⟩ := p
        exact processRange_skip st surah v hmiss rest a' o'

theorem specTimeline_aya_mem (st : Stores) (surah : Nat) :
    ∀ (ayas : List Nat) (offset : ℚ),
      ∀ w ∈ specTimeline st surah ayas offset, w.aya ∈ ayas
  | [], offset => by simp [specTimeline]
  | aya :: rest, offset => by
    intro w hw
    unfold specTimeline at hw
    cases hq : st.quran surah aya with
    | none =>
      rw [hq] at hw
      simp only [] at hw
      exact List.mem_cons_of_mem _ (specTimeline_aya_mem st surah rest offset w hw)
    | some text =>
      rw [hq] at hw
      cases hts : st.timestamps surah aya with
      | none =>
        rw [hts] at hw
        simp only [] at hw
        exact List.mem_cons_of_mem _ (specTimeline_aya_mem st surah rest offset w hw)
      | some e =>
        rw [hts] at hw
        simp only [] at hw
        rcases List.mem_append.mp hw with hw' | hw'
        · obtain ⟨sg, _, rfl⟩ := List.mem_map.mp hw'
          simp [mkRecD]
        · exact List.mem_cons_of_mem _
            (specTimeline_aya_mem st surah rest _ w hw')

/-- C3 (amended): when a verse is absent from the verse-text store or the
timestamp store, `get_words_with_timestamps` skips it and returns exactly
the records of the remaining verses (the run over the range with that
verse removed), raising no exception when the remaining verses are valid;
absence from the per-word translation store is, by contrast, an uncaught
exception (see the counterexample). -/
theorem loader_skip_amended (st : Stores) (surah aya_start aya_end v : Nat)
    (hmiss : st.quran surah v = none ∨ st.timestamps surah v = none)
    (hrest : ((List.range' aya_start (aya_end + 1 - aya_start)).filter
      (fun a => a ≠ v)).all (fun a => verseOk st surah a) = true) :
    get_words_with_timestamps st surah aya_start aya_end =
      some (specTimeline st surah
        ((List.range' aya_start (aya_end + 1 - aya_start)).filter
          (fun a => a ≠ v)) 0) ∧
    ∀ w ∈ specTimeline st surah
        ((List.range' aya_start (aya_end + 1 - aya_start)).filter
          (fun a => a ≠ v)) 0, w.aya ≠ v := by
  constructor
  · unfold get_words_with_timestamps
    rw [processRange_skip st surah v hmiss]
    rw [processRange_spec st surah _ [] 0 hrest]
    simp
  · intro w hw
    have hmem := specTimeline_aya_mem st surah _ 0 w hw
    have hdec := List.of_mem_filter hmem
    exact of_decide_eq_true hdec

theorem loader_skip_amended_witness :
    (stMiss.quran 1 2 = none ∨ stMiss.timestamps 1 2 = none) ∧
    ((List.range' 1 (3 + 1 - 1)).filter (fun a => a ≠ 2)).all
      (fun a => verseOk stMiss 1 a) = true ∧
    get_words_with_timestamps stMiss 1 1 3 =
      some (specTimeline stMiss 1
        ((List.range' 1 (3 + 1 - 1)).filter (fun a => a ≠ 2)) 0) :=
  ⟨Or.inr (by decide), by decide,
    (loader_skip_amended stMiss 1 1 3 2 (Or.inr (by decide)) (by decide)).1⟩

theorem processSegs_fail (st : Stores) (surah aya : Nat) (words : List String)
    (offset : ℚ) :
    ∀ (segs : List TsSegment) (i k : Nat) (sg : TsSegment),
      i + k < words.length → segs.get? k = some sg →
      (words.length : Int) < sg.pos →
      processSegs st surah aya words offset segs i = none
  | [], i, k, sg, hik, hget, hpos => by simp at hget
  | seg :: rest, i, k, sg, hik, hget, hpos => by
    unfold processSegs
    rw [if_neg (by omega)]
    cases k with
    | zero =>
      have hsg : seg = sg := by simpa using hget
      subst hsg
      have hfail : pyGet words (seg.pos - 1) = none := by
        have hj : ¬ (seg.pos - 1 < 0) := by omega
        have hc : ¬ (0 ≤ seg.pos - 1 ∧ seg.pos - 1 < (words.length : Int)) := by
          omega
        unfold pyGet
        simp only [if_neg hj]
        rw [dif_neg hc]
      rw [hfail]
    | succ k' =>
      cases hw : pyGet words (seg.pos - 1) with
      | none => cases st.translation surah aya seg.pos <;> rfl
      | some w =>
        cases htr : st.translation surah aya seg.pos with
        | none => rfl
        | some tr =>
          simp only []
          rw [processSegs_fail st surah aya words offset rest (i + 1) k' sg
            (by omega) (by simpa using hget) hpos]

/-- C10 (amended): the Python lookup `words[segment[0] - 1]` is in bounds
exactly when `word_position` lies between `1 - wordcount` and `wordcount`
(negative indexing accepts positions at or below 0 down to
`1 - wordcount`, selecting words from the end); and, since the truncation
guard compares only the enumeration index against the word count, a
processed segment (index below the word count) whose `word_position`
exceeds the word count makes the builder fail with an `IndexError`
instead of truncating. -/
theorem lookup_bounds_amended :
    (∀ (words : List String) (pos : Int),
      (pyGet words (pos - 1)).isSome = true ↔
        (1 - (words.length : Int) ≤ pos ∧ pos ≤ (words.length : Int))) ∧
    (∀ (st : Stores) (surah aya : Nat) (words : List String) (offset : ℚ)
        (segs : List TsSegment) (k : Nat) (sg : TsSegment),
      k < words.length → segs.get? k = some sg →
      (words.length : Int) < sg.pos →
      processSegs st surah aya words offset segs 0 = none) := by
  constructor
  · intro words pos
    unfold pyGet
    by_cases hneg : pos - 1 < 0
    · simp only [if_pos hneg]
      by_cases hc : 0 ≤ (words.length : Int) + (pos - 1) ∧
          (words.length : Int) + (pos - 1) < (words.length : Int)
      · rw [dif_pos hc]
        simp only [Option.isSome_some, true_iff]
        omega
      · rw [dif_neg hc]
        simp only [Option.isSome_none, Bool.false_eq_true, false_iff]
        omega
    · simp only [if_neg hneg]
      by_cases hc : 0 ≤ pos - 1 ∧ pos - 1 < (words.length : Int)
      · rw [dif_pos hc]
        simp only [Option.isSome_some, true_iff]
        omega
      · rw [dif_neg hc]
        simp only [Option.isSome_none, Bool.false_eq_true, false_iff]
        omega
  · intro st surah aya words offset segs k sg hk hget hpos
    exact processSegs_fail st surah aya words offset segs 0 k sg
      (by omega) hget hpos

theorem lookup_bounds_amended_witness :
    (0 : Nat) < (["alpha"] : List String).length ∧
    ([⟨2, 0, 1⟩] : List TsSegment).get? 0 = some ⟨2, 0, 1⟩ ∧
    (((["alpha"] : List String).length : Int) < (2 : Int)) ∧
    processSegs stNeg 1 1 ["alpha"] 0 [⟨2, 0, 1⟩] 0 = none :=
  ⟨by decide, by decide, by decide,
    lookup_bounds_amended.2 stNeg 1 1 ["alpha"] 0 [⟨2, 0, 1⟩] 0 ⟨2, 0, 1⟩
      (by decide) (by decide) (by decide)⟩
